import Mathlib

/-!
Verification of the elliptic-curve / ElGamal repository against its specification.

The repository has two layers:
* a generic layer: `algebra.rs` (trait hierarchy with a halving exponentiation),
  `mod_field.rs` (modular field over an abstract fixed-width natural),
  `points_group.rs` (curve points over any field), `encoding_utils.rs` (text codec)
  and `groups.rs` (an older trait hierarchy whose exponentiation recurses on the
  un-halved exponent);
* a concrete layer: `field.rs` (a `u64` prime field `Field<P>`) and `ecc.rs`
  (curve points, ElGamal keys and byte/base64 transport over `Field<0x144C3B27FF>`).

Machine integers are embedded as `ℕ`; wherever the Rust code can overflow or
underflow this is modelled explicitly (the two-branch modular addition keeps the
`Natural::max()` bound `mx` as a parameter; `u64` subtractions that cannot
underflow in context become `ℕ` subtractions with side conditions recorded in the
theorems).  Functions whose Rust originals recurse by halving are embedded with an
explicit fuel argument (structural recursion) plus fuel-invariance lemmas showing
the fuel never runs out for the stated call, so every definition evaluates by
kernel reduction.  A Rust `panic!` / failed `assert!` / `unwrap` of `None` is
modelled as `Option.none`; where a function distinguishes a recoverable `None`
from a panic, the three-valued result `PRes` is used.
-/

set_option maxRecDepth 4000

namespace Spec2

/-! ### `algebra.rs`: `CommutativeOp::exp` (halving recursion, panics at 0)

```rust
fn exp<I: Natural>(self, n: I, cfg: &Self::Cfg) -> Self {
    if n == I::zero() { panic!("...") }
    else if n == I::one() { self }
    else {
        let m = n / I::two();
        let r = self.exp(m, cfg);
        if n % I::two() == I::zero() { op(r, r) } else { op(r, op(r, self)) }
    }
}
```
The abstract trait method is embedded for an arbitrary binary operation
`f : α → α → α` (the configuration is baked into `f`).  `expOpF` is the
fuel-indexed body; `expOp` supplies sufficient fuel. -/
def expOpF (f : α → α → α) (a : α) : ℕ → ℕ → Option α
  | 0, _ => none
  | fuel + 1, n =>
    if n = 0 then none
    else if n = 1 then some a
    else
      match expOpF f a fuel (n / 2) with
      | none => none
      | some r => if n % 2 = 0 then some (f r r) else some (f r (f r a))

/-- `CommutativeOp::exp`: `none` models the `panic!` at exponent zero. -/
def expOp (f : α → α → α) (a : α) (n : ℕ) : Option α :=
  expOpF f a (n + 1) n

/-- The total counterpart of the halving recursion: equal to `expOp` on every
exponent `n ≥ 1` (`expOp_eq_expT`), used to embed call sites that are guarded
against exponent zero. -/
def expTF (f : α → α → α) (a : α) : ℕ → ℕ → α
  | 0, _ => a
  | fuel + 1, n =>
    if n ≤ 1 then a
    else
      let r := expTF f a fuel (n / 2)
      if n % 2 = 0 then f r r else f r (f r a)

def expT (f : α → α → α) (a : α) (n : ℕ) : α :=
  expTF f a (n + 1) n

/-- `CommutativeMonoid::exp` (`algebra.rs`): identity at zero, otherwise the
operation-level `exp`.  Total because the inner call is guarded. -/
def monoidExpT (f : α → α → α) (e a : α) (n : ℕ) : α :=
  if n = 0 then e else expT f a n

/-- `CommutativeMonoid::exp` with the inner `CommutativeOp::exp` kept as the
`Option`-valued (panic-aware) embedding; equal to `some (monoidExpT ...)`. -/
def monoidExp (f : α → α → α) (e a : α) (n : ℕ) : Option α :=
  if n = 0 then some e else expOp f a n

/-- The `n`-fold `f`-product of `a` with itself (`a` for `n ≤ 1`). -/
def iterOp (f : α → α → α) (a : α) : ℕ → α
  | 0 => a
  | n + 1 => if n = 0 then a else f (iterOp f a n) a

/-! ### `mod_field.rs`: the modular field `ModField<I>` over a fixed-width natural

The element type stores a bare natural `val`; the configuration stores the
modulus `rem`.  The width of the underlying machine integer enters only through
`Natural::max()`, kept here as a parameter `mx` (e.g. `2^64 - 1` for `u64`,
`2^8 - 1` for `u8`).  All stored values are `ℕ`; a `u64` subtraction `x - y`
that cannot underflow in context is embedded as `ℕ` truncated subtraction. -/
/-- `mod_field.rs` `gcd` (identical to the `gcd` in `field.rs`), with fuel. -/
def gcdF : ℕ → ℕ → ℕ → ℕ
  | 0, a, _ => a
  | fuel + 1, a, b =>
    if a = b then a
    else if a = 0 then b
    else if b = 0 then a
    else if b < a then gcdF fuel (a % b) b
    else gcdF fuel a (b % a)

def gcdE (a b : ℕ) : ℕ :=
  gcdF (a + b + 1) a b

/-- `ModField::new`: re-reduces its argument. -/
def mfNew (rem v : ℕ) : ℕ :=
  v % rem

/-- `CommutativeOp<Add> for ModField`: the two-branch overflow-safe addition.
`mx` is `Natural::max()`.  The Rust condition `a.val > max - b.val` and the
inner `b.val - (max - a.val)` use machine subtraction, which on the taken
branches coincides with `ℕ` truncated subtraction. -/
def mfAdd (mx rem a b : ℕ) : ℕ :=
  if mx - b < a then mfNew rem (mx % rem + (b - (mx - a)) % rem)
  else mfNew rem (a + b)

/-- `Inverse<Add> for ModField`: `rem - val`, not re-reduced. -/
def mfAddInv (rem v : ℕ) : ℕ :=
  rem - v

/-- `CommutativeOp<Mul> for ModField`: additive-monoid exponentiation of `a`
by the value of `b`. -/
def mfMul (mx rem a b : ℕ) : ℕ :=
  monoidExpT (mfAdd mx rem) 0 a b

/-- `Field::pow` for `ModField`: multiplicative-monoid exponentiation. -/
def mfPow (mx rem a n : ℕ) : ℕ :=
  monoidExpT (mfMul mx rem) 1 a n

/-- `InverseNonZero<Mul> for ModField`: the Fermat inverse, guarded by the
`gcd` test.  The `u64` exponent `rem - 2` is exact for `rem ≥ 2` (for
`rem < 2` the Rust subtraction underflows: a panic in debug builds). -/
def mfMulInv (mx rem v : ℕ) : Option ℕ :=
  if gcdE rem v ≠ 1 then none
  else some (mfPow mx rem v (rem - 2))

/-- `RW::from_bytes` for `ModField`: reads the raw little-endian value with no
reduction.  The byte source is modelled by the decoded natural `v < 2^(8·LEN)`. -/
def mfFromBytes (v : ℕ) : ℕ :=
  v

/-! ### `points_group.rs`: curve points over the modular field

The generic code is instantiated at `F = ModField<I>`; the `Field` helpers
`sub`, `div`, `neg`, `two`, `three`, `sqr`, `cube` from `algebra.rs` unfold to
the corresponding `ModField` operations.  A failed `assert!` or `unwrap` is
`none`. -/
/-- `Field::sub`: `op(a, inv(b))`. -/
def mfSub (mx rem a b : ℕ) : ℕ :=
  mfAdd mx rem a (mfAddInv rem b)

/-- `Field::div`: `op(a, inv(b).unwrap())`; `none` models the `unwrap` panic. -/
def mfDiv (mx rem a b : ℕ) : Option ℕ :=
  (mfMulInv mx rem b).map fun i => mfMul mx rem a i

/-- `Field::two`: `add(one, one)`. -/
def mfTwo (mx rem : ℕ) : ℕ :=
  mfAdd mx rem 1 1

/-- `Field::three`: `add(two, one)`. -/
def mfThree (mx rem : ℕ) : ℕ :=
  mfAdd mx rem (mfTwo mx rem) 1

/-- `Field::sqr`. -/
def mfSqr (mx rem x : ℕ) : ℕ :=
  mfMul mx rem x x

/-- `Field::cube`: `mul(sqr(self), self)`. -/
def mfCube (mx rem x : ℕ) : ℕ :=
  mfMul mx rem (mfSqr mx rem x) x

/-- A point of `points_group.rs` over `ModField`: the pair of stored values. -/
structure MPt where
  x : ℕ
  y : ℕ
deriving DecidableEq

/-- `PointCfg`: generator, curve coefficients, and the field configuration
(modulus `rem` plus the machine bound `mx`). -/
structure MCfg where
  mx : ℕ
  rem : ℕ
  a : ℕ
  b : ℕ
  g : MPt

/-- Left side `y²` of the validation in `Point::new`. -/
def curveLhs (c : MCfg) (y : ℕ) : ℕ :=
  mfSqr c.mx c.rem y

/-- Right side `x³ + a·x + b` of the validation in `Point::new`. -/
def curveRhs (c : MCfg) (x : ℕ) : ℕ :=
  mfAdd c.mx c.rem
    (mfAdd c.mx c.rem (mfCube c.mx c.rem x) (mfMul c.mx c.rem c.a x)) c.b

/-- `Point::new`: validated constructor; `none` models the failed `assert!`. -/
def pNew (c : MCfg) (x y : ℕ) : Option MPt :=
  if curveLhs c y = curveRhs c x then some ⟨x, y⟩ else none

/-- The unchecked constructor (`new_unsafe` in the source). -/
def pNewRaw (x y : ℕ) : MPt :=
  ⟨x, y⟩

/-- `Inverse<Add> for Point`: negates the `y` coordinate, no validation. -/
def pInv (c : MCfg) (p : MPt) : MPt :=
  ⟨p.x, mfAddInv c.rem p.y⟩

/-- `CommutativeOp<Add> for Point::op`: chord-and-tangent addition.  `none`
models the vertical-pair `assert!`, the `unwrap` inside `Field::div`, and the
re-validation in `Point::new`. -/
def pOp (c : MCfg) (p q : MPt) : Option MPt :=
  if p.x = q.x ∧ p.y ≠ q.y then none
  else
    (if p ≠ q then
      mfDiv c.mx c.rem (mfSub c.mx c.rem q.y p.y) (mfSub c.mx c.rem q.x p.x)
     else
      mfDiv c.mx c.rem
        (mfAdd c.mx c.rem
          (mfMul c.mx c.rem (mfThree c.mx c.rem) (mfSqr c.mx c.rem p.x)) c.a)
        (mfMul c.mx c.rem (mfTwo c.mx c.rem) p.y)).bind fun l =>
      let x3 := mfSub c.mx c.rem (mfSqr c.mx c.rem l) (mfAdd c.mx c.rem p.x q.x)
      let y3 := mfAddInv c.rem
        (mfAdd c.mx c.rem (mfMul c.mx c.rem l (mfSub c.mx c.rem x3 p.x)) p.y)
      pNew c x3 y3

/-- Three-valued result distinguishing a recoverable `None` from a panic
(`todo!()` or failed `assert!`). -/
inductive PRes (α : Type _) where
  | panic
  | nores
  | ok (val : α)
deriving DecidableEq

/-- `DiscreteRoot::sqrt` for `ModField`: Euler criterion, then the closed form
for `rem ≡ 3 (mod 4)`; the `todo!()` branch is `panic`. -/
def mfSqrt (mx rem v : ℕ) : PRes ℕ :=
  if mfPow mx rem v ((rem - 1) / 2) ≠ 1 then .nores
  else if rem % 4 = 3 then .ok (mfPow mx rem v ((rem + 1) / 4))
  else .panic

/-- `Point::from_x`: lifts an `x` coordinate through the discrete root; the
result is re-validated by `Point::new` (whose failure is a panic). -/
def pFromX (c : MCfg) (x : ℕ) : PRes MPt :=
  match mfSqrt c.mx c.rem (curveRhs c x) with
  | .panic => .panic
  | .nores => .nores
  | .ok y =>
    match pNew c x y with
    | none => .panic
    | some p => .ok p

/-- `RW::from_bytes for Point<F>`: reads the two field values through
`new_unsafe`, with no validation.  `xv`, `yv` are the little-endian decoded
values of the two halves of the byte buffer. -/
def pFromBytes (xv yv : ℕ) : MPt :=
  pNewRaw (mfFromBytes xv) (mfFromBytes yv)

/-! ### `encoding_utils.rs`: the text ↔ points codec

Byte strings are `List ℕ` with entries below 256.  `F = ModField<u64>`, so
`F::LEN = 8`.  `F::capacity` has no implementation under `src/`; the codec is
therefore stated for an arbitrary `capacity` value (see the `C6` theorem). -/
/-- Little-endian value of a byte list. -/
def leVal : List ℕ → ℕ
  | [] => 0
  | b :: rest => b + 256 * leVal rest

/-- The `k` little-endian bytes of `n` (`u64::to_le_bytes` for `k = 8`). -/
def natToLE : ℕ → ℕ → List ℕ
  | 0, _ => []
  | k + 1, n => n % 256 :: natToLE k (n / 256)

/-- The working buffer of `bytes_to_point`: `vec![0u8; F::LEN]` with the chunk
copied into its low bytes. -/
def bufInit (chunk : List ℕ) : List ℕ :=
  chunk ++ List.replicate (8 - chunk.length) 0

/-- The trial-increment loop of `bytes_to_point`: read `x` from the buffer,
try `Point::from_x`, and on failure increment the byte at index `cap`
(a `u8` increment of `255` panics, hence `none`).  At the call site the byte at
`cap` starts at `0`, so 256 iterations always suffice for the fuel. -/
def huntF (c : MCfg) (cap : ℕ) : ℕ → List ℕ → Option MPt
  | 0, _ => none
  | fuel + 1, buf =>
    match pFromX c (leVal buf) with
    | .ok p => some p
    | .panic => none
    | .nores =>
      if buf.getD cap 0 = 255 then none
      else huntF c cap fuel (buf.set cap (buf.getD cap 0 + 1))

/-- `bytes_to_point` (with `assert!(bytes.len() < F::LEN)`). -/
def bytesToPointM (c : MCfg) (chunk : List ℕ) (cap : ℕ) : Option MPt :=
  if chunk.length < 8 then huntF c cap 256 (bufInit chunk) else none

/-- The chunk list built by the loop of `text_to_points`: the
`s.length / eff` full chunks, then the remainder when `s.length % eff ≠ 0`. -/
def chunksOf (s : List ℕ) (eff : ℕ) : List (List ℕ) :=
  (List.range (s.length / eff)).map (fun i => (s.drop (i * eff)).take eff) ++
    (if s.length % eff ≠ 0 then [s.drop (s.length / eff * eff)] else [])

/-- Modelled from the spec: the parameter `capacity` stands for
`F::capacity(&cfg.cf)` — the field's usable byte width — which has no
implementation in the sources.  The rest is `text_to_points` from the code,
over the byte string `s`: the chunk size is `min(capacity, F::LEN - 1) - 1`
exactly as in the code, and `assert!(eff_length_incl_padding > 1)` is the
`none` guard. -/
def textToPointsM (c : MCfg) (capacity : ℕ) (s : List ℕ) : Option (List MPt) :=
  let eff := min capacity 7 - 1
  if eff ≤ 1 then none
  else (chunksOf s eff).mapM fun ch => bytesToPointM c ch eff

/-- `points_to_text`: for each point, copy the bytes of `x` up to
`min(F::LEN, cap)`, stopping at the first zero byte. -/
def pointsToTextM (ps : List MPt) (cap : ℕ) : List ℕ :=
  ps.flatMap fun p => ((natToLE 8 p.x).take (min 8 cap)).takeWhile (fun b => b ≠ 0)

/-! ### `groups.rs`: the final revision of the generic exponentiation

```rust
fn exp<I: Natural>(self, cfg: &C, n: I) -> Self {
    if n == I::zero() { Identity::identity(cfg) }
    else if n == I::one() { self }
    else {
        let m = n / I::two();
        let r = self.exp(cfg, n);          // recurses on n, not m
        if m % I::two() == I::zero() { op(r, r) } else { op(r, op(r, self)) }
    }
}
```
The recursion is embedded with explicit fuel; running out of fuel is `none`.
Because the recursive call receives the un-halved `n`, no amount of fuel
produces a value for `n ≥ 2`. -/
def groupsExpF (f : α → α → α) (e a : α) : ℕ → ℕ → Option α
  | 0, _ => none
  | fuel + 1, n =>
    if n = 0 then some e
    else if n = 1 then some a
    else
      let m := n / 2
      match groupsExpF f e a fuel n with
      | none => none
      | some r => if m % 2 = 0 then some (f r r) else some (f r (f r a))

/-! ### `field.rs` and `ecc.rs`: the concrete curve over `Field<0x144C3B27FF>`

`Field<P>` stores a `u64` reduced by the constructor; sums and products are
taken through `i128`, which is exact for reduced operands (`P < 2^37`), so the
operations embed as `ℕ` arithmetic modulo `P`.  `Neg` computes the `u64`
difference `P - v` without re-reducing.  `ops::Sub` uses `rem_euclid`, i.e.
the Euclidean remainder on `ℤ`. -/
def P87 : ℕ := 87178291199

/-- `Field::new` (`const fn`): reduces. -/
def fNew (v : ℕ) : ℕ :=
  v % P87

/-- `ops::Add for Field<P>`. -/
def fAdd (a b : ℕ) : ℕ :=
  (a + b) % P87

/-- `ops::Mul for Field<P>`. -/
def fMul (a b : ℕ) : ℕ :=
  a * b % P87

/-- `ops::Sub for Field<P>`: `(v1 - v2).rem_euclid(P)` over `i128`. -/
def fSub (a b : ℕ) : ℕ :=
  (((a : ℤ) - (b : ℤ)) % (P87 : ℤ)).toNat

/-- `ops::Neg for Field<P>`: `P - v`, not re-reduced (`P - 0 = P`). -/
def fNeg (a : ℕ) : ℕ :=
  P87 - a

/-- `Field::pow` of `field.rs` (`m = pow(p/2); r = pow(p%2); m * m * r`),
with fuel. -/
def fPowF : ℕ → ℕ → ℕ → ℕ
  | 0, v, _ => v
  | fuel + 1, v, n =>
    if n = 0 then fNew 1
    else if n = 1 then v
    else
      let m := fPowF fuel v (n / 2)
      let r := fPowF fuel v (n % 2)
      fMul (fMul m m) r

def fPow (v n : ℕ) : ℕ :=
  fPowF (n + 1) v n

/-- `Field::invert`: `assert!(gcd(P, v) == 1)` then the Fermat power. -/
def fInvert (v : ℕ) : Option ℕ :=
  if gcdE P87 v = 1 then some (fPow v (P87 - 2)) else none

/-- `ops::Div for Field<P>`: `self * rhs.invert()`. -/
def fDiv (a b : ℕ) : Option ℕ :=
  (fInvert b).map fun i => fMul a i

/-- `ecc.rs` curve constant `A = Zp::new(100)`. -/
def eA : ℕ := fNew 100

/-- `ecc.rs` curve constant `B = Zp::new(1)`. -/
def eB : ℕ := fNew 1

/-- `ecc.rs` `fn curve(x, y) -> bool`: `y*y == x*x*x + A*x + B`. -/
def curveE (x y : ℕ) : Bool :=
  fMul y y == fAdd (fAdd (fMul (fMul x x) x) (fMul eA x)) eB

/-- A point of `ecc.rs`: the pair of stored `u64` values. -/
structure EPt where
  x : ℕ
  y : ℕ
deriving DecidableEq

/-- `ecc.rs` `Point::new`: validated; `none` models the failed `assert!`. -/
def eNew (x y : ℕ) : Option EPt :=
  if curveE x y then some ⟨x, y⟩ else none

/-- The generator `G = (2500, 125001)` (a struct literal in the source). -/
def eG : EPt :=
  ⟨2500, 125001⟩

/-- `ops::Add for Point` of `ecc.rs`. -/
def eAdd (a b : EPt) : Option EPt :=
  if a.x = b.x ∧ a.y ≠ b.y then none
  else
    (if a ≠ b then fDiv (fSub b.y a.y) (fSub b.x a.x)
     else fDiv (fAdd (fMul (fMul (fNew 3) a.x) a.x) eA) (fMul (fNew 2) a.y)).bind
      fun l =>
        let x3 := fSub (fSub (fMul l l) a.x) b.x
        let y3 := fNeg (fAdd (fMul l (fSub x3 a.x)) a.y)
        eNew x3 y3

/-- `ops::Sub for Point`: `self + Point::new(x2, -y2)`. -/
def eSubPt (a b : EPt) : Option EPt :=
  (eNew b.x (fNeg b.y)).bind fun nb => eAdd a nb

/-- `ops::Mul<u128> for Point` (scalar multiplication by halving), with fuel;
`assert!(rhs > 0)` is the `none` at zero. -/
def eMulF : ℕ → EPt → ℕ → Option EPt
  | 0, _, _ => none
  | fuel + 1, a, n =>
    if n = 0 then none
    else if n = 1 then some a
    else
      match eMulF fuel a (n / 2) with
      | none => none
      | some pr => if n % 2 = 0 then eAdd pr pr else (eAdd pr pr).bind fun s => eAdd s a

def eMul (a : EPt) (n : ℕ) : Option EPt :=
  eMulF (n + 1) a n

/-- The public key produced by `gen_keys` for private scalar `pri`:
`pub_ = G * pri`. -/
def eGenPub (pri : ℕ) : Option EPt :=
  eMul eG pri

/-- `PublicKey::encrypt` with ephemeral scalar `t`:
`c1 = G * t; c2 = pub * t + msg`. -/
def eEncrypt (pb msg : EPt) (t : ℕ) : Option (EPt × EPt) :=
  (eMul eG t).bind fun c1 =>
    (eMul pb t).bind fun s =>
      (eAdd s msg).map fun c2 => (c1, c2)

/-- `PrivateKey::decrypt`: `c2 - c1 * pri`. -/
def eDecrypt (pri : ℕ) (c1 c2 : EPt) : Option EPt :=
  (eMul c1 pri).bind fun d => eSubPt c2 d

/-- `PublicKey::base64`, up to the external base64 collaborator (modelled as
the identity on byte buffers): the raw byte layout written before encoding.
The source copies the `x` bytes into both halves of the buffer. -/
def pubKeyBytes (k : EPt) : List ℕ :=
  natToLE 8 k.x ++ natToLE 8 k.x

/-- `PublicKey::from_base64`, after the external base64 collaborator: reads
the two halves as little-endian `u64`, reduces via `Zp::new`, and validates
via `Point::new`. -/
def pubKeyFromBytes (bs : List ℕ) : Option EPt :=
  eNew (fNew (leVal (bs.take 8))) (fNew (leVal ((bs.drop 8).take 8)))

/-- The configuration used by the unit tests of `points_group.rs` and
`encoding_utils.rs`: `ModField<u64>` with `rem = 0x144C3B27FF`, curve
`a = 100`, `b = 1`, generator `(2500, 125001)`. -/
def cfgTest : MCfg :=
  ⟨2 ^ 64 - 1, 87178291199, 100, 1, ⟨2500, 125001⟩⟩

/-! ## C1: the ElGamal round trip over the concrete curve

The curve of `ecc.rs` is `y² = x³ + 100·x + 1` over `F = ZMod P87` with
`P87 = 0x144C3B27FF` prime.  The embedded point operations are related to
Mathlib's nonsingular-point group on the corresponding Weierstrass curve, and
the round trip follows from the group law.  Primality of `P87` is certified
via `lucas_primality` with witness 17 and the factorisation
`P87 - 1 = 2 · 101 · 431575699`. -/
/-- Fast modular exponentiation (proof tool, not part of the embedding). -/
def powModF : ℕ → ℕ → ℕ → ℕ → ℕ
  | 0, _, _, _ => 1
  | fuel + 1, a, n, m =>
    if n = 0 then 1 % m
    else
      let r := powModF fuel a (n / 2) m
      if n % 2 = 0 then r * r % m else r * r % m * a % m

def powMod (a n m : ℕ) : ℕ :=
  powModF (n + 1) a n m

/-- The short Weierstrass curve of `ecc.rs` over `ZMod P87`. -/
def Wc : WeierstrassCurve.Affine (ZMod P87) :=
  { a₁ := 0, a₂ := 0, a₃ := 0, a₄ := 100, a₆ := 1 }

/-- The Mathlib side of an embedded `ecc.rs` point: its coordinates satisfy
the nonsingular condition of `Wc`. -/
def isPt (P : EPt) : Prop :=
  Wc.Nonsingular (P.x : ZMod P87) (P.y : ZMod P87)

/-- Machine-reachable coordinates: `x` reduced, `y` possibly stored as `P`
(the unreduced result of negating zero). -/
def semiRed (P : EPt) : Prop :=
  P.x < P87 ∧ P.y ≤ P87

/-- The nonsingular Mathlib point corresponding to an embedded point. -/
def toW (P : EPt) (h : isPt P) : Wc.Point :=
  WeierstrassCurve.Affine.Point.some h

theorem expOpF_fuel_inv (f : α → α → α) (a : α) :
    ∀ n f₁ f₂, n < f₁ → n < f₂ → expOpF f a f₁ n = expOpF f a f₂ n := by
  intro n
  induction n using Nat.strong_induction_on with
  | _ n ih =>
    intro f₁ f₂ h₁ h₂
    match f₁, f₂ with
    | g₁ + 1, g₂ + 1 =>
      show expOpF f a (g₁ + 1) n = expOpF f a (g₂ + 1) n
      simp only [expOpF]
      rcases Nat.eq_zero_or_pos n with rfl | hn
      · simp
      rcases Nat.lt_or_ge n 2 with hn2 | hn2
      · have : n = 1 := by omega
        subst this
        simp
      have hrec : n / 2 < n := Nat.div_lt_self (by omega) (by omega)
      rw [ih (n / 2) hrec g₁ g₂ (by omega) (by omega)]

theorem expOp_zero (f : α → α → α) (a : α) : expOp f a 0 = none := rfl

theorem expOp_one (f : α → α → α) (a : α) : expOp f a 1 = some a := rfl

theorem expOp_of_ge_two (f : α → α → α) (a : α) {n : ℕ} (h : 2 ≤ n) :
    expOp f a n =
      match expOp f a (n / 2) with
      | none => none
      | some r => if n % 2 = 0 then some (f r r) else some (f r (f r a)) := by
  unfold expOp
  conv_lhs => rw [show n + 1 = (n) + 1 from rfl, expOpF]
  have h0 : ¬ n = 0 := by omega
  have h1 : ¬ n = 1 := by omega
  simp only [h0, h1, if_false]
  rw [expOpF_fuel_inv f a (n / 2) n (n / 2 + 1) (by omega) (by omega)]

theorem expTF_fuel_inv (f : α → α → α) (a : α) :
    ∀ n f₁ f₂, n < f₁ → n < f₂ → expTF f a f₁ n = expTF f a f₂ n := by
  intro n
  induction n using Nat.strong_induction_on with
  | _ n ih =>
    intro f₁ f₂ h₁ h₂
    match f₁, f₂ with
    | g₁ + 1, g₂ + 1 =>
      show expTF f a (g₁ + 1) n = expTF f a (g₂ + 1) n
      simp only [expTF]
      rcases Nat.lt_or_ge n 2 with hn2 | hn2
      · have : n ≤ 1 := by omega
        simp [this]
      have hrec : n / 2 < n := Nat.div_lt_self (by omega) (by omega)
      rw [ih (n / 2) hrec g₁ g₂ (by omega) (by omega)]

theorem expT_of_le_one (f : α → α → α) (a : α) {n : ℕ} (h : n ≤ 1) :
    expT f a n = a := by
  unfold expT expTF
  simp [h]

theorem expT_of_ge_two (f : α → α → α) (a : α) {n : ℕ} (h : 2 ≤ n) :
    expT f a n =
      (let r := expT f a (n / 2)
       if n % 2 = 0 then f r r else f r (f r a)) := by
  unfold expT
  conv_lhs => rw [expTF]
  have h1 : ¬ n ≤ 1 := by omega
  simp only [h1, if_false]
  rw [expTF_fuel_inv f a (n / 2) n (n / 2 + 1) (by omega) (by omega)]

theorem expOp_eq_expT (f : α → α → α) (a : α) :
    ∀ n, 1 ≤ n → expOp f a n = some (expT f a n) := by
  intro n
  induction n using Nat.strong_induction_on with
  | _ n ih =>
    intro hn
    rcases Nat.lt_or_ge n 2 with hn2 | hn2
    · have : n = 1 := by omega
      subst this
      rw [expOp_one, expT_of_le_one f a (by omega)]
    · rw [expOp_of_ge_two f a hn2, expT_of_ge_two f a hn2]
      have hrec : n / 2 < n := Nat.div_lt_self (by omega) (by omega)
      rw [ih (n / 2) hrec (by omega)]
      by_cases h2 : n % 2 = 0 <;> simp [h2]

theorem monoidExp_eq (f : α → α → α) (e a : α) (n : ℕ) :
    monoidExp f e a n = some (monoidExpT f e a n) := by
  unfold monoidExp monoidExpT
  rcases Nat.eq_zero_or_pos n with rfl | hn
  · simp
  · simp only [Nat.pos_iff_ne_zero.mp hn, if_false, expOp_eq_expT f a n hn]

theorem iterOp_add (f : α → α → α) (a : α)
    (hassoc : ∀ x y z, f (f x y) z = f x (f y z)) :
    ∀ m n, 1 ≤ m → 1 ≤ n → iterOp f a (m + n) = f (iterOp f a m) (iterOp f a n) := by
  intro m n hm hn
  induction n with
  | zero => omega
  | succ k ih =>
    rcases Nat.eq_zero_or_pos k with rfl | hk
    · show iterOp f a (m + 1) = f (iterOp f a m) (iterOp f a 1)
      simp only [iterOp]
      have : ¬ m = 0 := by omega
      simp [this]
    · have hik := ih hk
      show iterOp f a ((m + k) + 1) = _
      simp only [iterOp]
      have : ¬ m + k = 0 := by omega
      simp only [this, if_false]
      rw [hik, hassoc]
      congr 1
      have : ¬ k = 0 := by omega
      simp [iterOp, this]

theorem expT_eq_iterOp (f : α → α → α) (a : α)
    (hassoc : ∀ x y z, f (f x y) z = f x (f y z)) :
    ∀ n, 1 ≤ n → expT f a n = iterOp f a n := by
  intro n
  induction n using Nat.strong_induction_on with
  | _ n ih =>
    intro hn
    rcases Nat.lt_or_ge n 2 with hn2 | hn2
    · have : n = 1 := by omega
      subst this
      rw [expT_of_le_one f a (by omega)]
      rfl
    · rw [expT_of_ge_two f a hn2]
      have hrec : n / 2 < n := Nat.div_lt_self (by omega) (by omega)
      have hhalf : 1 ≤ n / 2 := by omega
      rw [ih (n / 2) hrec hhalf]
      rcases Nat.even_or_odd n with he | ho
      · have hmod : n % 2 = 0 := Nat.even_iff.mp he
        simp only [hmod, if_true]
        rw [← iterOp_add f a hassoc (n / 2) (n / 2) hhalf hhalf]
        congr 1
        omega
      · have hmod : n % 2 = 1 := Nat.odd_iff.mp ho
        simp only [hmod, Nat.one_ne_zero, if_false]
        have h1 : f (iterOp f a (n / 2)) a = iterOp f a (n / 2 + 1) := by
          rw [iterOp_add f a hassoc (n / 2) 1 hhalf (by omega)]
          rfl
        rw [h1, ← iterOp_add f a hassoc (n / 2) (n / 2 + 1) hhalf (by omega)]
        congr 1
        omega

theorem gcdF_fuel_inv :
    ∀ m a b f₁ f₂, a + b ≤ m → a + b < f₁ → a + b < f₂ → gcdF f₁ a b = gcdF f₂ a b := by
  intro m
  induction m with
  | zero =>
    intro a b f₁ f₂ hm h₁ h₂
    match f₁, f₂ with
    | g₁ + 1, g₂ + 1 =>
      have ha : a = 0 := by omega
      have hb : b = 0 := by omega
      subst ha; subst hb
      rfl
  | succ k ih =>
    intro a b f₁ f₂ hm h₁ h₂
    match f₁, f₂ with
    | g₁ + 1, g₂ + 1 =>
      show gcdF (g₁ + 1) a b = gcdF (g₂ + 1) a b
      simp only [gcdF]
      by_cases hab : a = b
      · simp [hab]
      by_cases ha : a = 0
      · simp [hab, ha]
      by_cases hb : b = 0
      · simp [hab, ha, hb]
      simp only [hab, ha, hb, if_false]
      by_cases hlt : b < a
      · simp only [hlt, if_true]
        have hmod : a % b < b := Nat.mod_lt _ (by omega)
        exact ih (a % b) b g₁ g₂ (by omega) (by omega) (by omega)
      · simp only [hlt, if_false]
        have hmod : b % a < a := Nat.mod_lt _ (by omega)
        exact ih a (b % a) g₁ g₂ (by omega) (by omega) (by omega)

theorem gcdE_eq_unfold (a b : ℕ) :
    gcdE a b =
      if a = b then a
      else if a = 0 then b
      else if b = 0 then a
      else if b < a then gcdE (a % b) b
      else gcdE a (b % a) := by
  unfold gcdE
  conv_lhs => rw [gcdF]
  by_cases hab : a = b
  · simp [hab]
  by_cases ha : a = 0
  · simp [hab, ha]
  by_cases hb : b = 0
  · simp [hab, ha, hb]
  simp only [hab, ha, hb, if_false]
  by_cases hlt : b < a
  · simp only [hlt, if_true]
    have hmod : a % b < b := Nat.mod_lt _ (by omega)
    exact gcdF_fuel_inv (a % b + b) (a % b) b _ _ le_rfl (by omega) (by omega)
  · simp only [hlt, if_false]
    have hmod : b % a < a := Nat.mod_lt _ (by omega)
    exact gcdF_fuel_inv (a + b % a) a (b % a) _ _ le_rfl (by omega) (by omega)

theorem gcdE_eq_gcd (a b : ℕ) : gcdE a b = Nat.gcd a b := by
  suffices h : ∀ m a b, a + b ≤ m → gcdE a b = Nat.gcd a b from h (a + b) a b le_rfl
  intro m
  induction m using Nat.strong_induction_on with
  | _ m ih =>
    intro a b hm
    rw [gcdE_eq_unfold]
    by_cases hab : a = b
    · simp [hab, Nat.gcd_self]
    by_cases ha : a = 0
    · simp [hab, ha]
    by_cases hb : b = 0
    · simp [hab, ha, hb]
    simp only [hab, ha, hb, if_false]
    by_cases hlt : b < a
    · simp only [hlt, if_true]
      have hmod : a % b < b := Nat.mod_lt _ (by omega)
      rw [ih (a % b + b) (by omega) _ _ le_rfl]
      rw [Nat.gcd_comm a b, Nat.gcd_rec b a]
    · simp only [hlt, if_false]
      have hmod : b % a < a := Nat.mod_lt _ (by omega)
      rw [ih (a + b % a) (by omega) _ _ le_rfl]
      rw [Nat.gcd_comm a (b % a)]
      exact (Nat.gcd_rec a b).symm

theorem mfAdd_lt (mx rem a b : ℕ) (hrem : 0 < rem) : mfAdd mx rem a b < rem := by
  unfold mfAdd mfNew
  split <;> exact Nat.mod_lt _ hrem

/-- Correctness of the overflow-safe addition on reduced operands, together
with the in-range facts for both branches: the overflow-branch sum
`max % rem + (b - (max - a)) % rem` never exceeds `max`, and the direct branch
only runs when `a + b ≤ max`. -/
theorem mfAdd_correct (mx rem a b : ℕ) (hrem : 0 < rem) (hmx : rem ≤ mx)
    (ha : a < rem) (hb : b < rem) :
    mfAdd mx rem a b = (a + b) % rem ∧
      (mx - b < a → mx % rem + (b - (mx - a)) % rem ≤ mx) ∧
      (¬ mx - b < a → a + b ≤ mx) := by
  refine ⟨?_, ?_, ?_⟩
  · unfold mfAdd mfNew
    by_cases hc : mx - b < a
    · simp only [hc, if_true]
      have hab : mx < a + b := by omega
      have hsub : b - (mx - a) = a + b - mx := by omega
      have h3 : a + b = mx + (a + b - mx) := by omega
      rw [hsub]
      conv_rhs => rw [h3, Nat.add_mod]
    · simp [hc]
  · intro hc
    have hab : mx < a + b := by omega
    have h1 : mx % rem < rem := Nat.mod_lt _ hrem
    have h2 : (b - (mx - a)) % rem < rem := Nat.mod_lt _ hrem
    rcases Nat.lt_or_ge mx (2 * rem) with hsmall | hbig
    · have : mx % rem = mx - rem := by
        rw [Nat.mod_eq_sub_mod hmx, Nat.mod_eq_of_lt (by omega)]
      omega
    · omega
  · intro hc
    omega

theorem mfNew_lt (rem v : ℕ) (hrem : 0 < rem) : mfNew rem v < rem :=
  Nat.mod_lt _ hrem

/-- The two-branch addition computes `(a + b) % rem` for any machine-valid
operands (`≤ max`), reduced or not. -/
theorem mfAdd_mod (mx rem a b : ℕ) (ha : a ≤ mx) (hb : b ≤ mx) :
    mfAdd mx rem a b = (a + b) % rem := by
  unfold mfAdd mfNew
  by_cases hc : mx - b < a
  · simp only [hc, if_true]
    have hab : mx < a + b := by omega
    have hsub : b - (mx - a) = a + b - mx := by omega
    have h3 : a + b = mx + (a + b - mx) := by omega
    rw [hsub]
    conv_rhs => rw [h3, Nat.add_mod]
  · simp [hc]

theorem expT_cases (f : α → α → α) (a : α) {n : ℕ} (h : 2 ≤ n) :
    ∃ x y, expT f a n = f x y := by
  rw [expT_of_ge_two f a h]
  by_cases h2 : n % 2 = 0 <;> simp [h2]

/-- The additive exponentiation used as multiplication: for `1 ≤ n` and a
machine-valid base it computes `a * n` modulo `rem`, stays machine-valid, and
is reduced as soon as `n ≥ 2`. -/
theorem expT_add_correct (mx rem a : ℕ) (hrem : 0 < rem) (hmx : rem ≤ mx)
    (ha : a ≤ mx) :
    ∀ n, 1 ≤ n →
      expT (mfAdd mx rem) a n ≡ a * n [MOD rem] ∧
      expT (mfAdd mx rem) a n ≤ mx ∧
      (2 ≤ n → expT (mfAdd mx rem) a n < rem) := by
  intro n
  induction n using Nat.strong_induction_on with
  | _ n ih =>
    intro hn
    rcases Nat.lt_or_ge n 2 with hn2 | hn2
    · have : n = 1 := by omega
      subst this
      rw [expT_of_le_one _ _ (by omega)]
      exact ⟨by rw [Nat.mul_one], ha, by omega⟩
    · have hrec : n / 2 < n := Nat.div_lt_self (by omega) (by omega)
      have hhalf : 1 ≤ n / 2 := by omega
      obtain ⟨hmod, hle, _⟩ := ih (n / 2) hrec hhalf
      rw [expT_of_ge_two _ _ hn2]
      set r := expT (mfAdd mx rem) a (n / 2) with hr
      by_cases h2 : n % 2 = 0
      · simp only [h2, if_true]
        rw [mfAdd_mod mx rem r r hle hle]
        refine ⟨?_, le_trans (le_of_lt (Nat.mod_lt _ hrem)) hmx,
          fun _ => Nat.mod_lt _ hrem⟩
        have heq : a * (n / 2) + a * (n / 2) = a * n := by
          rw [← Nat.mul_add]
          congr 1
          omega
        calc (r + r) % rem ≡ r + r [MOD rem] := Nat.mod_modEq _ _
          _ ≡ a * (n / 2) + a * (n / 2) [MOD rem] := Nat.ModEq.add hmod hmod
          _ = a * n := heq
      · simp only [h2, if_false]
        have hra : mfAdd mx rem r a = (r + a) % rem := mfAdd_mod mx rem r a hle ha
        have hra_le : mfAdd mx rem r a ≤ mx :=
          hra ▸ le_trans (le_of_lt (Nat.mod_lt _ hrem)) hmx
        rw [mfAdd_mod mx rem r _ hle hra_le, hra]
        refine ⟨?_, le_trans (le_of_lt (Nat.mod_lt _ hrem)) hmx,
          fun _ => Nat.mod_lt _ hrem⟩
        have heq : a * (n / 2) + (a * (n / 2) + a) = a * n := by
          have hsplit : n = n / 2 + n / 2 + 1 := by omega
          calc a * (n / 2) + (a * (n / 2) + a) = a * (n / 2 + n / 2 + 1) := by ring
            _ = a * n := by rw [← hsplit]
        calc (r + (r + a) % rem) % rem
            ≡ r + (r + a) % rem [MOD rem] := Nat.mod_modEq _ _
          _ ≡ r + (r + a) [MOD rem] := Nat.ModEq.add_left r (Nat.mod_modEq _ _)
          _ ≡ a * (n / 2) + (a * (n / 2) + a) [MOD rem] :=
              Nat.ModEq.add hmod (Nat.ModEq.add_right a hmod)
          _ = a * n := heq

/-- Multiplication (`CommutativeOp<Mul>` via additive exponentiation) computes
`a * b % rem` on machine-valid bases, with the bounds used downstream. -/
theorem mfMul_correct (mx rem a b : ℕ) (hrem : 0 < rem) (hmx : rem ≤ mx)
    (ha : a ≤ mx) :
    mfMul mx rem a b ≡ a * b [MOD rem] ∧
    mfMul mx rem a b ≤ mx ∧
    (b ≠ 1 → mfMul mx rem a b < rem) ∧
    (a < rem → mfMul mx rem a b < rem) := by
  unfold mfMul monoidExpT
  rcases Nat.eq_zero_or_pos b with rfl | hb
  · simp only [if_true]
    exact ⟨by simp [Nat.ModEq.refl], by omega, fun _ => hrem, fun _ => hrem⟩
  · simp only [Nat.pos_iff_ne_zero.mp hb, if_false]
    obtain ⟨hmod, hle, hlt⟩ := expT_add_correct mx rem a hrem hmx ha b hb
    refine ⟨hmod, hle, fun hb1 => hlt (by omega), fun halt => ?_⟩
    rcases Nat.lt_or_ge b 2 with hb2 | hb2
    · have : b = 1 := by omega
      subst this
      rwa [expT_of_le_one _ _ (by omega)]
    · exact hlt hb2

theorem expT_mul_correct (mx rem a : ℕ) (hrem : 0 < rem) (hmx : rem ≤ mx)
    (ha : a ≤ mx) :
    ∀ n, 1 ≤ n →
      expT (mfMul mx rem) a n ≡ a ^ n [MOD rem] ∧
      expT (mfMul mx rem) a n ≤ mx ∧
      (a < rem → expT (mfMul mx rem) a n < rem) := by
  intro n
  induction n using Nat.strong_induction_on with
  | _ n ih =>
    intro hn
    rcases Nat.lt_or_ge n 2 with hn2 | hn2
    · have : n = 1 := by omega
      subst this
      rw [expT_of_le_one _ _ (by omega)]
      exact ⟨by rw [pow_one], ha, fun h => h⟩
    · have hrec : n / 2 < n := Nat.div_lt_self (by omega) (by omega)
      have hhalf : 1 ≤ n / 2 := by omega
      obtain ⟨hmod, hle, hred⟩ := ih (n / 2) hrec hhalf
      rw [expT_of_ge_two _ _ hn2]
      set r := expT (mfMul mx rem) a (n / 2) with hr
      by_cases h2 : n % 2 = 0
      · simp only [h2, if_true]
        obtain ⟨m1, m2, _, m4⟩ := mfMul_correct mx rem r r hrem hmx hle
        refine ⟨?_, m2, fun haa => m4 (hred haa)⟩
        have heq : a ^ (n / 2) * a ^ (n / 2) = a ^ n := by
          rw [← pow_add]
          congr 1
          omega
        calc mfMul mx rem r r ≡ r * r [MOD rem] := m1
          _ ≡ a ^ (n / 2) * a ^ (n / 2) [MOD rem] := Nat.ModEq.mul hmod hmod
          _ = a ^ n := heq
      · simp only [h2, if_false]
        obtain ⟨i1, i2, _, _⟩ := mfMul_correct mx rem r a hrem hmx hle
        obtain ⟨o1, o2, _, o4⟩ := mfMul_correct mx rem r (mfMul mx rem r a) hrem hmx hle
        refine ⟨?_, o2, fun haa => o4 (hred haa)⟩
        have heq : a ^ (n / 2) * (a ^ (n / 2) * a) = a ^ n := by
          rw [← pow_succ, ← pow_add]
          congr 1
          omega
        calc mfMul mx rem r (mfMul mx rem r a)
            ≡ r * mfMul mx rem r a [MOD rem] := o1
          _ ≡ r * (r * a) [MOD rem] := Nat.ModEq.mul_left r i1
          _ ≡ a ^ (n / 2) * (a ^ (n / 2) * a) [MOD rem] :=
              Nat.ModEq.mul hmod (Nat.ModEq.mul_right a hmod)
          _ = a ^ n := heq

/-- `Field::pow` computes `a ^ n % rem` on machine-valid bases. -/
theorem mfPow_correct (mx rem a n : ℕ) (hrem : 0 < rem) (hmx : rem ≤ mx)
    (ha : a ≤ mx) :
    mfPow mx rem a n ≡ a ^ n [MOD rem] ∧ mfPow mx rem a n ≤ mx := by
  unfold mfPow monoidExpT
  rcases Nat.eq_zero_or_pos n with rfl | hn
  · simpa using ⟨Nat.ModEq.refl 1, le_trans hrem hmx⟩
  simp only [Nat.pos_iff_ne_zero.mp hn, if_false]
  obtain ⟨h1, h2, _⟩ := expT_mul_correct mx rem a hrem hmx ha n hn
  exact ⟨h1, h2⟩

theorem mfPow_lt (mx rem a n : ℕ) (hrem : 2 ≤ rem) (hmx : rem ≤ mx)
    (ha : a < rem) : mfPow mx rem a n < rem := by
  unfold mfPow monoidExpT
  rcases Nat.eq_zero_or_pos n with rfl | hn
  · simpa using hrem
  simp only [Nat.pos_iff_ne_zero.mp hn, if_false]
  obtain ⟨_, _, h3⟩ := expT_mul_correct mx rem a (by omega) hmx (by omega) n hn
  exact h3 ha

/-! ## Claim theorems -/
/-- C2.  Overflow-safe modular addition: for every modulus
`0 < rem ≤ Natural::max()` and reduced operands `a, b < rem`, the additive
operation returns `(a + b) % rem`, and neither branch overflows the native
width: the overflow branch computes a sum bounded by `max`, and the direct
branch only runs when `a + b ≤ max`. -/
theorem C2_overflow_safe_addition (mx rem a b : ℕ)
    (hrem : 0 < rem) (hmx : rem ≤ mx) (ha : a < rem) (hb : b < rem) :
    mfAdd mx rem a b = (a + b) % rem ∧
    (mx - b < a → mx % rem + (b - (mx - a)) % rem ≤ mx) ∧
    (¬ mx - b < a → a + b ≤ mx) :=
  mfAdd_correct mx rem a b hrem hmx ha hb

theorem C2_overflow_safe_addition_witness :
    mfAdd 255 251 110 150 = (110 + 150) % 251 ∧
    (255 - 150 < 110 → 255 % 251 + (150 - (255 - 110)) % 251 ≤ 255) ∧
    (¬ 255 - 150 < 110 → 110 + 150 ≤ 255) :=
  C2_overflow_safe_addition 255 251 110 150 (by decide) (by decide)
    (by decide) (by decide)

/-- C3.  The halving exponentiation of `algebra.rs` is correct: under an
associative (and commutative) operation, `CommutativeOp::exp(a, n)` is the
`n`-fold product of `a` for every `n ≥ 1`; it follows exactly the stated
recursion (`exp(a, 1) = a`; for `n ≥ 2`, with `r = exp(a, n / 2)`, the result
is `op(r, r)` for even `n` and `op(r, op(r, a))` for odd `n`); and on the
synthetic additive monoid with value 7 it yields
`exp(7, 9) = 63`, `exp(7, 6) = 42`, `exp(7, 1) = 7`. -/
theorem C3_exp_correct (f : α → α → α) (a : α)
    (hassoc : ∀ x y z, f (f x y) z = f x (f y z))
    (hcomm : ∀ x y, f x y = f y x) :
    (∀ n, 1 ≤ n → expOp f a n = some (iterOp f a n)) ∧
    expOp f a 1 = some a ∧
    (∀ n, 2 ≤ n → expOp f a n =
      (expOp f a (n / 2)).bind fun r =>
        if n % 2 = 0 then some (f r r) else some (f r (f r a))) ∧
    (expOp (fun x y : ℕ => x + y) 7 9 = some 63 ∧
     expOp (fun x y : ℕ => x + y) 7 6 = some 42 ∧
     expOp (fun x y : ℕ => x + y) 7 1 = some 7) := by
  refine ⟨fun n hn => ?_, expOp_one f a, fun n hn => ?_, by decide, by decide, by decide⟩
  · rw [expOp_eq_expT f a n hn, expT_eq_iterOp f a hassoc n hn]
  · rw [expOp_of_ge_two f a hn]
    rcases expOp f a (n / 2) with _ | r <;> rfl

theorem C3_exp_correct_witness :
    expOp (fun x y : ℕ => x + y) 7 9 = some (iterOp (fun x y : ℕ => x + y) 7 9) :=
  (C3_exp_correct (fun x y : ℕ => x + y) 7
    (fun x y z => Nat.add_assoc x y z) (fun x y => Nat.add_comm x y)).1 9 (by omega)

/-- C9.  Exponent-zero handling: the operation-level `exp` fails (panics) at
`n = 0`, the monoid-level `exp` returns the identity at `n = 0`, and the two
agree for every `n ≥ 1`. -/
theorem C9_exponent_zero (f : α → α → α) (e a : α) :
    expOp f a 0 = none ∧
    monoidExp f e a 0 = some e ∧
    (∀ n, 1 ≤ n → monoidExp f e a n = expOp f a n) := by
  refine ⟨rfl, rfl, fun n hn => ?_⟩
  unfold monoidExp
  have : ¬ n = 0 := by omega
  simp [this]

theorem C9_exponent_zero_witness :
    monoidExp (fun x y : ℕ => x + y) 1234 7 9 = expOp (fun x y : ℕ => x + y) 7 9 :=
  (C9_exponent_zero (fun x y : ℕ => x + y) 1234 7).2.2 9 (by omega)

/-- C8.  The final-revision exponentiation of `groups.rs` recurses on the
un-halved exponent, so its evaluation diverges for every exponent `n ≥ 2`:
no amount of fuel makes it produce a value. -/
theorem C8_groups_exp_diverges (f : α → α → α) (e a : α) :
    ∀ n, 2 ≤ n → ∀ fuel, groupsExpF f e a fuel n = none := by
  intro n hn fuel
  induction fuel with
  | zero => rfl
  | succ k ih =>
    show groupsExpF f e a (k + 1) n = none
    simp only [groupsExpF]
    have h0 : ¬ n = 0 := by omega
    have h1 : ¬ n = 1 := by omega
    simp [h0, h1, ih]

theorem C8_groups_exp_diverges_witness :
    groupsExpF (fun x y : ℕ => x + y) 0 7 1000 2 = none :=
  C8_groups_exp_diverges (fun x y : ℕ => x + y) 0 7 2 (by omega) 1000

/-- C10.  Doubling an on-curve point with `y = 0` panics even though the
vertical-pair precondition `!(x1 == x2 && y1 != y2)` holds: the doubling
branch divides by `2·y1 = 0`, whose multiplicative inverse is `None`, and
`Field::div` unwraps it. -/
theorem C10_double_y_zero_panics (c : MCfg) (x : ℕ) (hrem : 1 < c.rem)
    (hvalid : curveLhs c 0 = curveRhs c x) :
    (¬ (x = x ∧ (0 : ℕ) ≠ 0)) ∧ pOp c ⟨x, 0⟩ ⟨x, 0⟩ = none := by
  refine ⟨by simp, ?_⟩
  unfold pOp
  have hcond : ¬ ((⟨x, 0⟩ : MPt).x = (⟨x, 0⟩ : MPt).x ∧ (⟨x, 0⟩ : MPt).y ≠ (⟨x, 0⟩ : MPt).y) := by
    simp
  rw [if_neg hcond, if_neg (by simp)]
  have hmul0 : mfMul c.mx c.rem (mfTwo c.mx c.rem) (⟨x, 0⟩ : MPt).y = 0 := rfl
  rw [hmul0]
  have hdiv : mfDiv c.mx c.rem
      (mfAdd c.mx c.rem
        (mfMul c.mx c.rem (mfThree c.mx c.rem) (mfSqr c.mx c.rem (⟨x, 0⟩ : MPt).x)) c.a)
      0 = none := by
    unfold mfDiv mfMulInv
    rw [gcdE_eq_gcd, Nat.gcd_zero_right]
    have : ¬ c.rem = 1 := by omega
    simp [this]
  rw [hdiv]
  rfl

theorem C10_double_y_zero_panics_witness :
    (¬ ((0 : ℕ) = 0 ∧ (0 : ℕ) ≠ 0)) ∧
      pOp ⟨255, 19, 1, 0, ⟨0, 0⟩⟩ ⟨0, 0⟩ ⟨0, 0⟩ = none :=
  C10_double_y_zero_panics ⟨255, 19, 1, 0, ⟨0, 0⟩⟩ 0 (by decide) (by decide)

/-- C7 (code bug).  `PublicKey::base64` writes the `x` bytes into both halves
of the 16-byte buffer (the second `copy_from_slice` reads `self.0.x` again
instead of `self.0.y`), so the written layout is `x ‖ x` rather than `x ‖ y`,
and `PublicKey::from_base64` applied to it panics in `Point::new` for the
generator public key, instead of round-tripping. -/
theorem C7_pubkey_base64_bug :
    pubKeyBytes eG = natToLE 8 eG.x ++ natToLE 8 eG.x ∧
    eG.y ≠ eG.x ∧
    pubKeyFromBytes (pubKeyBytes eG) = none := by
  refine ⟨rfl, by decide, ?_⟩
  decide

/-- C5 (counterexample).  The claim that every reachable `ModField` value is
reduced fails at the additive inverse of zero: with `rem = 19`, the stored
value of `inv(new(0))` is `19`, which is not in `[0, 19)`. -/
theorem C5_reduction_counterexample :
    ¬ (mfAddInv 19 (mfNew 19 0) < 19) := by
  decide

/-- C5 (amended).  Construction, addition, multiplication, multiplicative
inversion, square roots and (via `new`) random generation all yield reduced
values; the additive inverse is reduced only on nonzero inputs and stores
`rem` at zero; byte deserialization stores the raw decoded value with no
reduction. -/
theorem C5_reduction_amended (mx rem : ℕ) (hrem : 0 < rem) (hmx : rem ≤ mx) :
    (∀ v, mfNew rem v < rem) ∧
    (∀ a b, mfAdd mx rem a b < rem) ∧
    (∀ v, v < rem → v ≠ 0 → mfAddInv rem v < rem) ∧
    mfAddInv rem 0 = rem ∧
    (∀ a b, a < rem → mfMul mx rem a b < rem) ∧
    (∀ v w, 2 ≤ rem → v < rem → mfMulInv mx rem v = some w → w < rem) ∧
    (∀ v w, 2 ≤ rem → v < rem → mfSqrt mx rem v = .ok w → w < rem) ∧
    (∀ v, mfFromBytes v = v) := by
  refine ⟨fun v => mfNew_lt rem v hrem, fun a b => mfAdd_lt mx rem a b hrem,
    fun v hv hv0 => by unfold mfAddInv; omega, by unfold mfAddInv; omega,
    fun a b ha => (mfMul_correct mx rem a b hrem hmx (le_trans (le_of_lt ha) hmx)).2.2.2 ha,
    fun v w h2 hv hw => ?_, fun v w h2 hv hw => ?_, fun v => rfl⟩
  · unfold mfMulInv at hw
    by_cases hg : gcdE rem v = 1
    · simp only [hg, ne_eq, not_true_eq_false, if_false, Option.some.injEq] at hw
      subst hw
      exact mfPow_lt mx rem v _ h2 hmx hv
    · simp [hg] at hw
  · unfold mfSqrt at hw
    by_cases he : mfPow mx rem v ((rem - 1) / 2) ≠ 1
    · simp [he] at hw
    · simp only [he, if_false] at hw
      by_cases h4 : rem % 4 = 3
      · simp only [h4, if_true, PRes.ok.injEq] at hw
        subst hw
        exact mfPow_lt mx rem v _ h2 hmx hv
      · simp [h4] at hw

theorem C5_reduction_amended_witness : mfMulInv (2 ^ 64 - 1) 19 11 = some 7 ∧ 7 < 19 :=
  ⟨by decide, (C5_reduction_amended (2 ^ 64 - 1) 19 (by decide) (by decide)).2.2.2.2.2.1
    11 7 (by decide) (by decide) (by decide)⟩

theorem pNew_some {c : MCfg} {x y : ℕ} {p : MPt} (h : pNew c x y = some p) :
    curveLhs c p.y = curveRhs c p.x ∧ p = ⟨x, y⟩ := by
  unfold pNew at h
  by_cases hc : curveLhs c y = curveRhs c x
  · rw [if_pos hc, Option.some.injEq] at h
    subst h
    exact ⟨hc, rfl⟩
  · rw [if_neg hc] at h
    exact absurd h (by simp)

theorem add_eq_sq_modEq {a b n : ℕ} (h : a + b = n) : a * a ≡ b * b [MOD n] := by
  rcases le_total b a with hba | hab
  · obtain ⟨k, rfl⟩ := Nat.exists_eq_add_of_le hba
    have hn : n = 2 * b + k := by omega
    show (b + k) * (b + k) % n = b * b % n
    have hsq : (b + k) * (b + k) = b * b + (2 * b + k) * k := by ring
    rw [hsq, hn]
    exact Nat.add_mul_mod_self_left (b * b) (2 * b + k) k
  · obtain ⟨k, rfl⟩ := Nat.exists_eq_add_of_le hab
    have hn : n = 2 * a + k := by omega
    show a * a % n = (a + k) * (a + k) % n
    have hsq : (a + k) * (a + k) = a * a + (2 * a + k) * k := by ring
    rw [hsq, hn]
    exact (Nat.add_mul_mod_self_left (a * a) (2 * a + k) k).symm

theorem mfSqr_lt (mx rem a : ℕ) (hrem : 2 ≤ rem) (hmx : rem ≤ mx) (ha : a ≤ rem) :
    mfSqr mx rem a < rem := by
  unfold mfSqr
  obtain ⟨_, _, h3, h4⟩ := mfMul_correct mx rem a a (by omega) hmx (le_trans ha hmx)
  rcases Nat.lt_or_ge a rem with h | h
  · exact h4 h
  · have : a = rem := by omega
    subst this
    exact h3 (by omega)

theorem mfSqr_modEq (mx rem a : ℕ) (hrem : 0 < rem) (hmx : rem ≤ mx) (ha : a ≤ mx) :
    mfSqr mx rem a ≡ a * a [MOD rem] :=
  (mfMul_correct mx rem a a hrem hmx ha).1

/-- C4 (counterexample).  Byte deserialization of a curve point goes through
`new_unsafe` with no validation: decoding sixteen zero bytes yields the point
`(0, 0)`, which violates the curve equation of the test configuration
(`y² = x³ + 100·x + 1` over `F_0x144C3B27FF`). -/
theorem C4_validity_counterexample :
    pFromBytes 0 0 = pNewRaw 0 0 ∧
    curveLhs cfgTest (pFromBytes 0 0).y ≠ curveRhs cfgTest (pFromBytes 0 0).x := by
  refine ⟨rfl, ?_⟩
  decide

/-- C4 (amended).  The validated constructor, the group operation and the
`from_x` lifting only ever produce points satisfying the configured curve
equation, and the validated constructor fails on any pair violating it;
negation preserves validity (for machine-reachable coordinates); but byte
deserialization constructs its point through the unchecked constructor with no
validation. -/
theorem C4_validity_amended (c : MCfg) :
    (∀ x y p, pNew c x y = some p → curveLhs c p.y = curveRhs c p.x) ∧
    (∀ x y, curveLhs c y ≠ curveRhs c x → pNew c x y = none) ∧
    (∀ p q r, pOp c p q = some r → curveLhs c r.y = curveRhs c r.x) ∧
    (∀ x r, pFromX c x = .ok r → curveLhs c r.y = curveRhs c r.x) ∧
    (1 < c.rem → c.rem ≤ c.mx → ∀ p : MPt, p.y ≤ c.rem →
      curveLhs c p.y = curveRhs c p.x →
      curveLhs c (pInv c p).y = curveRhs c (pInv c p).x ∧ (pInv c p).x = p.x) ∧
    (∀ xv yv, pFromBytes xv yv = pNewRaw xv yv) := by
  refine ⟨fun x y p h => (pNew_some h).1, fun x y h => by unfold pNew; simp [h],
    fun p q r h => ?_, fun x r h => ?_, fun hrem hmx p hy hval => ?_, fun xv yv => rfl⟩
  · unfold pOp at h
    by_cases hc : p.x = q.x ∧ p.y ≠ q.y
    · rw [if_pos hc] at h
      exact absurd h (by simp)
    · rw [if_neg hc] at h
      rcases hdiv : (if p ≠ q then
          mfDiv c.mx c.rem (mfSub c.mx c.rem q.y p.y) (mfSub c.mx c.rem q.x p.x)
        else
          mfDiv c.mx c.rem
            (mfAdd c.mx c.rem
              (mfMul c.mx c.rem (mfThree c.mx c.rem) (mfSqr c.mx c.rem p.x)) c.a)
            (mfMul c.mx c.rem (mfTwo c.mx c.rem) p.y)) with _ | l
      · rw [hdiv] at h
        exact absurd h (by simp)
      · rw [hdiv] at h
        simp only [Option.some_bind] at h
        exact (pNew_some h).1
  · unfold pFromX at h
    rcases hs : mfSqrt c.mx c.rem (curveRhs c x) with _ | _ | y
    · rw [hs] at h
      exact absurd h (by simp)
    · rw [hs] at h
      exact absurd h (by simp)
    · rw [hs] at h
      have h2 : (match pNew c x y with
        | none => PRes.panic
        | some p => PRes.ok p) = PRes.ok r := h
      rcases hn : pNew c x y with _ | p
      · rw [hn] at h2
        exact absurd h2 (by simp)
      · rw [hn] at h2
        simp only [PRes.ok.injEq] at h2
        subst h2
        exact (pNew_some hn).1
  · have hd : (pInv c p).y = c.rem - p.y := rfl
    have hxx : (pInv c p).x = p.x := rfl
    refine ⟨?_, hxx⟩
    rw [hxx, ← hval]
    show curveLhs c (c.rem - p.y) = curveLhs c p.y
    unfold curveLhs
    have h1 : mfSqr c.mx c.rem (c.rem - p.y) < c.rem :=
      mfSqr_lt _ _ _ (by omega) hmx (by omega)
    have h2 : mfSqr c.mx c.rem p.y < c.rem :=
      mfSqr_lt _ _ _ (by omega) hmx hy
    have hmod : mfSqr c.mx c.rem (c.rem - p.y) ≡ mfSqr c.mx c.rem p.y [MOD c.rem] := by
      calc mfSqr c.mx c.rem (c.rem - p.y)
          ≡ (c.rem - p.y) * (c.rem - p.y) [MOD c.rem] :=
            mfSqr_modEq _ _ _ (by omega) hmx (by omega)
        _ ≡ p.y * p.y [MOD c.rem] := add_eq_sq_modEq (by omega)
        _ ≡ mfSqr c.mx c.rem p.y [MOD c.rem] :=
            (mfSqr_modEq _ _ _ (by omega) hmx (le_trans hy hmx)).symm
    have := hmod
    unfold Nat.ModEq at this
    rw [Nat.mod_eq_of_lt h1, Nat.mod_eq_of_lt h2] at this
    exact this

theorem C4_validity_amended_witness :
    curveLhs cfgTest (pInv cfgTest ⟨2500, 125001⟩).y =
      curveRhs cfgTest (pInv cfgTest ⟨2500, 125001⟩).x ∧
    (pInv cfgTest ⟨2500, 125001⟩).x = (⟨2500, 125001⟩ : MPt).x :=
  (C4_validity_amended cfgTest).2.2.2.2.1 (by decide) (by decide)
    ⟨2500, 125001⟩ (by decide) (by decide)

theorem natToLE_leVal : ∀ l : List ℕ, (∀ b ∈ l, b < 256) →
    natToLE l.length (leVal l) = l := by
  intro l
  induction l with
  | nil => intro _; rfl
  | cons b rest ih =>
    intro hb
    show (b + 256 * leVal rest) % 256 :: natToLE rest.length ((b + 256 * leVal rest) / 256) =
      b :: rest
    have hblt : b < 256 := hb b (List.mem_cons_self b rest)
    have hmod : (b + 256 * leVal rest) % 256 = b := by
      rw [Nat.add_mul_mod_self_left, Nat.mod_eq_of_lt hblt]
    have hdiv : (b + 256 * leVal rest) / 256 = leVal rest := by
      rw [Nat.add_mul_div_left _ _ (by omega), Nat.div_eq_of_lt hblt]
      omega
    rw [hmod, hdiv, ih (fun x hx => hb x (List.mem_cons_of_mem b hx))]

theorem take_set_of_le : ∀ (l : List ℕ) (i v n : ℕ), n ≤ i →
    (l.set i v).take n = l.take n := by
  intro l
  induction l with
  | nil => intro i v n _; rfl
  | cons a t ih =>
    intro i v n hni
    match i, n with
    | _, 0 => simp
    | 0, n + 1 => omega
    | i + 1, n + 1 =>
      show a :: (t.set i v).take n = a :: t.take n
      rw [ih i v n (by omega)]

theorem pFromX_ok_x {c : MCfg} {x : ℕ} {q : MPt} (h : pFromX c x = .ok q) : q.x = x := by
  unfold pFromX at h
  rcases hs : mfSqrt c.mx c.rem (curveRhs c x) with _ | _ | y <;> rw [hs] at h
  · exact absurd h (by simp)
  · exact absurd h (by simp)
  · have h2 : (match pNew c x y with
      | none => PRes.panic
      | some p => PRes.ok p) = PRes.ok q := h
    rcases hn : pNew c x y with _ | p
    · rw [hn] at h2
      exact absurd h2 (by simp)
    · rw [hn] at h2
      simp only [PRes.ok.injEq] at h2
      subst h2
      rw [(pNew_some hn).2]

theorem huntF_some {c : MCfg} {cap : ℕ} :
    ∀ fuel (buf : List ℕ) (p : MPt), (∀ b ∈ buf, b < 256) →
      huntF c cap fuel buf = some p →
      ∃ bufp : List ℕ, (∀ b ∈ bufp, b < 256) ∧ bufp.length = buf.length ∧
        bufp.take cap = buf.take cap ∧ p.x = leVal bufp := by
  intro fuel
  induction fuel with
  | zero => intro buf p _ h; exact absurd h (by simp [huntF])
  | succ k ih =>
    intro buf p hb h
    rw [show huntF c cap (k + 1) buf =
      (match pFromX c (leVal buf) with
       | .ok q => some q
       | .panic => none
       | .nores =>
         if buf.getD cap 0 = 255 then none
         else huntF c cap k (buf.set cap (buf.getD cap 0 + 1))) from rfl] at h
    rcases hfx : pFromX c (leVal buf) with _ | _ | q <;> rw [hfx] at h
    · exact absurd h (by simp)
    · by_cases h255 : buf.getD cap 0 = 255
      · rw [if_pos h255] at h
        exact absurd h (by simp)
      · rw [if_neg h255] at h
        have hvlt : buf.getD cap 0 < 256 := by
          rcases Nat.lt_or_ge cap buf.length with hc | hc
          · rw [List.getD_eq_getElem buf 0 hc]
            exact hb _ (List.getElem_mem hc)
          · rw [List.getD_eq_default buf 0 hc]
            omega
        have hb' : ∀ b ∈ buf.set cap (buf.getD cap 0 + 1), b < 256 := by
          intro b hbm
          rcases List.mem_or_eq_of_mem_set hbm with hm | rfl
          · exact hb b hm
          · omega
        obtain ⟨bufp, h1, h2, h3, h4⟩ := ih _ p hb' h
        refine ⟨bufp, h1, by rw [h2, List.length_set], ?_, h4⟩
        rw [h3, take_set_of_le buf cap _ cap le_rfl]
    · rw [Option.some.injEq] at h
      subst h
      exact ⟨buf, hb, rfl, rfl, pFromX_ok_x hfx⟩

theorem takeWhile_append_zeros :
    ∀ chunk zs : List ℕ, (∀ b ∈ chunk, b ≠ 0) → (∀ z ∈ zs, z = 0) →
      (chunk ++ zs).takeWhile (fun b => b ≠ 0) = chunk := by
  intro chunk
  induction chunk with
  | nil =>
    intro zs _ hz
    rcases zs with _ | ⟨z, zs'⟩
    · rfl
    · have : z = 0 := hz z (List.mem_cons_self z zs')
      subst this
      simp [List.takeWhile]
  | cons a rest ih =>
    intro zs ha hz
    have ha0 : (a = 0) = False := by simp [ha a (List.mem_cons_self a rest)]
    have ih' := ih zs (fun x hx => ha x (List.mem_cons_of_mem a hx)) hz
    simp only [ne_eq, decide_not] at ih' ⊢
    rw [List.cons_append, List.takeWhile_cons]
    simp [ha0, ih']

theorem bufInit_take (chunk : List ℕ) (eff : ℕ) (hlen : chunk.length ≤ eff)
    (heff : eff ≤ 8) :
    (bufInit chunk).take eff = chunk ++ List.replicate (eff - chunk.length) 0 := by
  unfold bufInit
  rw [List.take_append_eq_append_take, List.take_of_length_le hlen,
    List.take_replicate]
  congr 1
  congr 1
  omega

/-- One chunk decodes back through `points_to_text`'s inner loop. -/
theorem decode_one {c : MCfg} {chunk : List ℕ} {eff : ℕ} {p : MPt}
    (hlen : chunk.length ≤ eff) (heff : eff ≤ 6)
    (hb : ∀ b ∈ chunk, b < 256) (hnz : ∀ b ∈ chunk, b ≠ 0)
    (h : bytesToPointM c chunk eff = some p) :
    ((natToLE 8 p.x).take (min 8 eff)).takeWhile (fun b => b ≠ 0) = chunk := by
  unfold bytesToPointM at h
  rw [if_pos (by omega)] at h
  have hbuf : ∀ b ∈ bufInit chunk, b < 256 := by
    intro b hbm
    rcases List.mem_append.mp hbm with hm | hm
    · exact hb b hm
    · rw [List.eq_of_mem_replicate hm]
      omega
  obtain ⟨bufp, h1, h2, h3, h4⟩ := huntF_some 256 (bufInit chunk) p hbuf h
  have hlenb : (bufInit chunk).length = 8 := by
    unfold bufInit
    rw [List.length_append, List.length_replicate]
    omega
  have h8 : bufp.length = 8 := by rw [h2, hlenb]
  have hx : natToLE 8 p.x = bufp := by
    rw [h4, ← h8, natToLE_leVal bufp h1]
  rw [hx, Nat.min_eq_right (by omega)]
  have htake : bufp.take eff = chunk ++ List.replicate (eff - chunk.length) 0 := by
    rw [h3, bufInit_take chunk eff hlen (by omega)]
  rw [htake]
  exact takeWhile_append_zeros chunk _ hnz (fun z hz => List.eq_of_mem_replicate hz)

theorem chunksOf_nil (eff : ℕ) : chunksOf [] eff = [] := by
  simp [chunksOf]

theorem chunksOf_cons (s : List ℕ) (eff : ℕ) (heff : 1 ≤ eff) (hs : s ≠ []) :
    chunksOf s eff = s.take eff :: chunksOf (s.drop eff) eff := by
  have hslen : 1 ≤ s.length := by
    rcases s with _ | ⟨a, t⟩
    · exact absurd rfl hs
    · simp
  rcases Nat.lt_or_ge s.length eff with hcase | hcase
  · have hdiv : s.length / eff = 0 := Nat.div_eq_of_lt hcase
    have hmod : s.length % eff = s.length := Nat.mod_eq_of_lt hcase
    have hdrop : s.drop eff = [] := List.drop_eq_nil_of_le (by omega)
    rw [hdrop, chunksOf_nil, List.take_of_length_le (by omega)]
    unfold chunksOf
    rw [hdiv, hmod]
    simp only [List.range_zero, List.map_nil, List.nil_append]
    rw [if_pos (by omega)]
    simp
  · have hlen' : (s.drop eff).length = s.length - eff := List.length_drop eff s
    have hsplit : s.length = (s.length - eff) + eff := by omega
    have hdiv : s.length / eff = (s.length - eff) / eff + 1 := by
      conv_lhs => rw [hsplit]
      rw [Nat.add_div_right _ (by omega)]
    have hmod : s.length % eff = (s.length - eff) % eff := by
      conv_lhs => rw [hsplit]
      rw [Nat.add_mod_right]
    unfold chunksOf
    rw [hdiv, hmod, hlen', List.range_succ_eq_map]
    simp only [List.map_cons, List.map_map, List.cons_append]
    congr 1
    · rw [Nat.zero_mul, List.drop_zero]
    congr 1
    · apply List.map_congr_left
      intro i _
      show (s.drop (Nat.succ i * eff)).take eff = ((s.drop eff).drop (i * eff)).take eff
      rw [List.drop_drop, Nat.succ_mul, Nat.add_comm (i * eff) eff, Nat.add_comm eff (i * eff)]
    · by_cases hm : (s.length - eff) % eff ≠ 0
      · rw [if_pos hm, if_pos hm]
        congr 1
        rw [List.drop_drop, Nat.add_mul, Nat.one_mul, Nat.add_comm]
      · rw [if_neg hm, if_neg hm]

/-- The codec round trip at the level of the chunked encoder. -/
theorem codec_roundtrip (c : MCfg) (eff : ℕ) (h2 : 2 ≤ eff) (h6 : eff ≤ 6) :
    ∀ n (s : List ℕ) (ps : List MPt), s.length ≤ n →
      (∀ b ∈ s, b < 256) → (∀ b ∈ s, b ≠ 0) →
      (chunksOf s eff).mapM (fun ch => bytesToPointM c ch eff) = some ps →
      pointsToTextM ps eff = s := by
  intro n
  induction n with
  | zero =>
    intro s ps hlen _ _ h
    have : s = [] := List.eq_nil_of_length_eq_zero (by omega)
    subst this
    rw [chunksOf_nil] at h
    simp only [List.mapM_nil, Option.pure_def, Option.some.injEq] at h
    subst h
    rfl
  | succ k ih =>
    intro s ps hlen hb hnz h
    by_cases hsne : s = []
    · subst hsne
      rw [chunksOf_nil] at h
      simp only [List.mapM_nil, Option.pure_def, Option.some.injEq] at h
      subst h
      rfl
    · rw [chunksOf_cons s eff (by omega) hsne, List.mapM_cons] at h
      rcases hp : bytesToPointM c (s.take eff) eff with _ | p
      · rw [hp] at h
        exact absurd h (by simp)
      · rw [hp] at h
        rcases hps : (chunksOf (s.drop eff) eff).mapM (fun ch => bytesToPointM c ch eff)
          with _ | ps'
        · rw [hps] at h
          exact absurd h (by simp)
        · rw [hps] at h
          simp at h
          subst h
          have hdec : ((natToLE 8 p.x).take (min 8 eff)).takeWhile (fun b => b ≠ 0) =
              s.take eff :=
            decode_one (by rw [List.length_take]; omega) h6
              (fun b hbm => hb b (List.mem_of_mem_take hbm))
              (fun b hbm => hnz b (List.mem_of_mem_take hbm)) hp
          have hrest : pointsToTextM ps' eff = s.drop eff := by
            apply ih (s.drop eff) ps' _ (fun b hbm => hb b (List.mem_of_mem_drop hbm))
              (fun b hbm => hnz b (List.mem_of_mem_drop hbm)) hps
            rw [List.length_drop]
            have : 0 < s.length := List.length_pos.mpr hsne
            omega
          have hfold : pointsToTextM (p :: ps') eff =
              ((natToLE 8 p.x).take (min 8 eff)).takeWhile (fun b => b ≠ 0) ++
                pointsToTextM ps' eff := by
            simp [pointsToTextM]
          rw [hfold, hdec, hrest, List.take_append_drop]

/-- C6.  Codec round trip: for every byte string with no zero byte, decoding
the encoding recovers the string, where the decode width is the field's byte
capacity minus the one reserved padding byte.  `F::capacity` has no
implementation under `src/`; per the specification it is the usable byte
width of the field, kept abstract here (any value with `2 < capacity ≤
F::LEN - 1` makes the encoder's chunk size and the decoder's width agree, as
at the test call sites). -/
theorem C6_codec_roundtrip (c : MCfg) (capacity : ℕ) (s : List ℕ) (ps : List MPt)
    (hcap2 : 2 < capacity) (hcap7 : capacity ≤ 7)
    (hb : ∀ b ∈ s, b < 256) (hnz : ∀ b ∈ s, b ≠ 0)
    (henc : textToPointsM c capacity s = some ps) :
    pointsToTextM ps (capacity - 1) = s := by
  have heffeq : min capacity 7 - 1 = capacity - 1 := by omega
  unfold textToPointsM at henc
  simp only [heffeq] at henc
  rw [if_neg (by omega)] at henc
  exact codec_roundtrip c (capacity - 1) (by omega) (by omega) s.length s ps
    le_rfl hb hnz henc

theorem C6_codec_roundtrip_witness :
    pointsToTextM [⟨1819043144, 71038168298⟩, ⟨4294967407, 86658743948⟩] (5 - 1) =
      [72, 101, 108, 108, 111] :=
  C6_codec_roundtrip cfgTest 5 [72, 101, 108, 108, 111]
    [⟨1819043144, 71038168298⟩, ⟨4294967407, 86658743948⟩]
    (by decide) (by decide) (by decide) (by decide) (by decide)

theorem powModF_eq (a m : ℕ) :
    ∀ n fuel, n < fuel → powModF fuel a n m = a ^ n % m := by
  intro n
  induction n using Nat.strong_induction_on with
  | _ n ih =>
    intro fuel hf
    match fuel with
    | g + 1 =>
      show powModF (g + 1) a n m = a ^ n % m
      simp only [powModF]
      rcases Nat.eq_zero_or_pos n with rfl | hn
      · simp
      have h0 : ¬ n = 0 := by omega
      simp only [h0, if_false]
      have hrec : n / 2 < n := Nat.div_lt_self (by omega) (by omega)
      rw [ih (n / 2) hrec g (by omega)]
      have hmm2 : ∀ z : ℕ, z % m % m = z % m := fun z => Nat.mod_mod_of_dvd z dvd_rfl
      by_cases h2 : n % 2 = 0
      · simp only [h2, if_true]
        have hsplit : a ^ n = a ^ (n / 2) * a ^ (n / 2) := by
          rw [← pow_add]
          congr 1
          omega
        conv_rhs => rw [hsplit, Nat.mul_mod]
      · simp only [h2, if_false]
        have hsplit : a ^ n = a ^ (n / 2) * a ^ (n / 2) * a := by
          rw [← pow_add, ← pow_succ]
          congr 1
          omega
        conv_rhs => rw [hsplit, Nat.mul_mod (a ^ (n / 2) * a ^ (n / 2)) a,
          Nat.mul_mod (a ^ (n / 2)) (a ^ (n / 2))]
        conv_lhs => rw [Nat.mul_mod _ a]
        rw [hmm2]

theorem powMod_eq (a n m : ℕ) : powMod a n m = a ^ n % m :=
  powModF_eq a m n (n + 1) (by omega)

theorem zmod_pow_eq_cast_powMod (p a n : ℕ) :
    ((a : ZMod p)) ^ n = ((powMod a n p : ℕ) : ZMod p) := by
  rw [powMod_eq a n p, ZMod.natCast_mod, Nat.cast_pow]

theorem p101_prime : Nat.Prime 101 := by norm_num

theorem p97_prime : Nat.Prime 97 := by norm_num

theorem p347_prime : Nat.Prime 347 := by norm_num

theorem p2137_prime : Nat.Prime 2137 := by norm_num

theorem q431_prime : Nat.Prime 431575699 := by
  haveI : NeZero (431575699 : ℕ) := ⟨by norm_num⟩
  haveI : Fact (1 < (431575699 : ℕ)) := ⟨by norm_num⟩
  apply lucas_primality 431575699 (10 : ZMod 431575699)
  · have h10 : ((10 : ℕ) : ZMod 431575699) = (10 : ZMod 431575699) := by norm_cast
    rw [← h10, zmod_pow_eq_cast_powMod]
    have hval : powMod 10 (431575699 - 1) 431575699 = 1 := by decide
    rw [hval, Nat.cast_one]
  · intro q hq hdvd
    have hfact : (431575699 : ℕ) - 1 = 2 * (3 * (97 * (347 * 2137))) := by norm_num
    rw [hfact] at hdvd
    have hcases : q = 2 ∨ q = 3 ∨ q = 97 ∨ q = 347 ∨ q = 2137 := by
      rcases (Nat.Prime.dvd_mul hq).mp hdvd with h | h
      · exact Or.inl ((Nat.prime_dvd_prime_iff_eq hq Nat.prime_two).mp h)
      rcases (Nat.Prime.dvd_mul hq).mp h with h2 | h2
      · exact Or.inr (Or.inl ((Nat.prime_dvd_prime_iff_eq hq Nat.prime_three).mp h2))
      rcases (Nat.Prime.dvd_mul hq).mp h2 with h3 | h3
      · exact Or.inr (Or.inr (Or.inl ((Nat.prime_dvd_prime_iff_eq hq p97_prime).mp h3)))
      rcases (Nat.Prime.dvd_mul hq).mp h3 with h4 | h4
      · exact Or.inr (Or.inr (Or.inr
          (Or.inl ((Nat.prime_dvd_prime_iff_eq hq p347_prime).mp h4))))
      · exact Or.inr (Or.inr (Or.inr
          (Or.inr ((Nat.prime_dvd_prime_iff_eq hq p2137_prime).mp h4))))
    have h10 : ((10 : ℕ) : ZMod 431575699) = (10 : ZMod 431575699) := by norm_cast
    have key : ∀ k r, powMod 10 k 431575699 = r → r ≠ 1 →
        (10 : ZMod 431575699) ^ k ≠ 1 := by
      intro k r hpow hr hone
      rw [← h10, zmod_pow_eq_cast_powMod, hpow] at hone
      have hrlt : r < 431575699 := by
        rw [← hpow, powMod_eq]
        exact Nat.mod_lt _ (by norm_num)
      haveI : NeZero (431575699 : ℕ) := ⟨by norm_num⟩
      haveI : Fact (1 < (431575699 : ℕ)) := ⟨by norm_num⟩
      have hval : ((r : ℕ) : ZMod 431575699).val = r := ZMod.val_cast_of_lt hrlt
      rw [hone] at hval
      rw [ZMod.val_one] at hval
      exact hr hval.symm
    rcases hcases with rfl | rfl | rfl | rfl | rfl
    · exact key 215787849 431575698 (by decide) (by decide)
    · exact key 143858566 28652100 (by decide) (by decide)
    · exact key 4449234 305798323 (by decide) (by decide)
    · exact key 1243734 393751993 (by decide) (by decide)
    · exact key 201954 272210404 (by decide) (by decide)

theorem P87_prime : Nat.Prime P87 := by
  show Nat.Prime 87178291199
  haveI : NeZero (87178291199 : ℕ) := ⟨by norm_num⟩
  haveI : Fact (1 < (87178291199 : ℕ)) := ⟨by norm_num⟩
  apply lucas_primality 87178291199 (17 : ZMod 87178291199)
  · have h17 : ((17 : ℕ) : ZMod 87178291199) = (17 : ZMod 87178291199) := by norm_cast
    rw [← h17, zmod_pow_eq_cast_powMod]
    have hval : powMod 17 (87178291199 - 1) 87178291199 = 1 := by decide
    rw [hval, Nat.cast_one]
  · intro q hq hdvd
    have hfact : (87178291199 : ℕ) - 1 = 2 * (101 * 431575699) := by norm_num
    rw [hfact] at hdvd
    have hcases : q = 2 ∨ q = 101 ∨ q = 431575699 := by
      rcases (Nat.Prime.dvd_mul hq).mp hdvd with h | h
      · exact Or.inl ((Nat.prime_dvd_prime_iff_eq hq Nat.prime_two).mp h)
      · rcases (Nat.Prime.dvd_mul hq).mp h with h2 | h2
        · exact Or.inr (Or.inl ((Nat.prime_dvd_prime_iff_eq hq p101_prime).mp h2))
        · exact Or.inr (Or.inr ((Nat.prime_dvd_prime_iff_eq hq q431_prime).mp h2))
    have h17 : ((17 : ℕ) : ZMod 87178291199) = (17 : ZMod 87178291199) := by norm_cast
    have key : ∀ k r, powMod 17 k 87178291199 = r → r ≠ 1 →
        (17 : ZMod 87178291199) ^ k ≠ 1 := by
      intro k r hpow hr hone
      rw [← h17, zmod_pow_eq_cast_powMod, hpow] at hone
      have hrlt : r < 87178291199 := by
        rw [← hpow, powMod_eq]
        exact Nat.mod_lt _ (by norm_num)
      haveI : NeZero (87178291199 : ℕ) := ⟨by norm_num⟩
      haveI : Fact (1 < (87178291199 : ℕ)) := ⟨by norm_num⟩
      have hval : ((r : ℕ) : ZMod 87178291199).val = r := ZMod.val_cast_of_lt hrlt
      rw [hone] at hval
      rw [ZMod.val_one] at hval
      exact hr hval.symm
    rcases hcases with rfl | rfl | rfl
    · exact key 43589145599 87178291198 (by decide) (by decide)
    · exact key 863151398 17489436189 (by decide) (by decide)
    · exact key 202 74520972395 (by decide) (by decide)

theorem P87_pos : 0 < P87 := by norm_num [P87]

theorem Wc_delta_ne_zero : Wc.Δ ≠ 0 := by
  have hb2 : Wc.b₂ = 0 := by
    rw [WeierstrassCurve.b₂]
    show (0 : ZMod P87) ^ 2 + 4 * 0 = 0
    ring
  have hb4 : Wc.b₄ = 200 := by
    rw [WeierstrassCurve.b₄]
    show 2 * (100 : ZMod P87) + 0 * 0 = 200
    ring
  have hb6 : Wc.b₆ = 4 := by
    rw [WeierstrassCurve.b₆]
    show (0 : ZMod P87) ^ 2 + 4 * 1 = 4
    ring
  have hb8 : Wc.b₈ = -10000 := by
    rw [WeierstrassCurve.b₈]
    show (0 : ZMod P87) ^ 2 * 1 + 4 * 0 * 1 - 0 * 0 * 100 + 0 * 0 ^ 2 - 100 ^ 2 = -10000
    ring
  have h : Wc.Δ = -64000432 := by
    show WeierstrassCurve.Δ _ = _
    rw [WeierstrassCurve.Δ, hb2, hb4, hb6, hb8]
    ring
  rw [h]
  intro hc
  have h2 : ((64000432 : ℕ) : ZMod P87) = 0 := by
    have hz : (-(64000432 : ZMod P87)) = 0 := hc
    rw [neg_eq_zero] at hz
    rw [← hz]
    norm_cast
  rw [ZMod.natCast_zmod_eq_zero_iff_dvd] at h2
  have := Nat.le_of_dvd (by norm_num) h2
  rw [P87] at this
  omega

theorem cast_fNew (v : ℕ) : ((fNew v : ℕ) : ZMod P87) = (v : ZMod P87) := by
  unfold fNew
  rw [ZMod.natCast_mod]

theorem cast_fAdd (a b : ℕ) :
    ((fAdd a b : ℕ) : ZMod P87) = (a : ZMod P87) + (b : ZMod P87) := by
  unfold fAdd
  rw [ZMod.natCast_mod]
  push_cast
  rfl

theorem cast_fMul (a b : ℕ) :
    ((fMul a b : ℕ) : ZMod P87) = (a : ZMod P87) * (b : ZMod P87) := by
  unfold fMul
  rw [ZMod.natCast_mod]
  push_cast
  rfl

theorem cast_fSub (a b : ℕ) :
    ((fSub a b : ℕ) : ZMod P87) = (a : ZMod P87) - (b : ZMod P87) := by
  unfold fSub
  have h0 : (0 : ℤ) ≤ ((a : ℤ) - (b : ℤ)) % (P87 : ℤ) :=
    Int.emod_nonneg _ (by norm_num [P87])
  have h1 : ((((((a : ℤ) - (b : ℤ)) % (P87 : ℤ)).toNat : ℕ) : ℤ) : ZMod P87) =
      ((((a : ℤ) - (b : ℤ)) % (P87 : ℤ) : ℤ) : ZMod P87) := by
    rw [Int.toNat_of_nonneg h0]
  have h2 : (((((a : ℤ) - (b : ℤ)) % (P87 : ℤ)).toNat : ℕ) : ZMod P87) =
      ((((a : ℤ) - (b : ℤ)) % (P87 : ℤ) : ℤ) : ZMod P87) := by
    rw [← h1]
    push_cast
    rfl
  rw [h2]
  have h3 : ((P87 : ℤ)) = ((P87 : ℕ) : ℤ) := rfl
  rw [h3, ZMod.intCast_mod]
  push_cast
  rfl

theorem cast_fNeg (a : ℕ) (ha : a ≤ P87) : ((fNeg a : ℕ) : ZMod P87) = -(a : ZMod P87) := by
  unfold fNeg
  rw [Nat.cast_sub ha, ZMod.natCast_self, zero_sub]

theorem fSub_lt (a b : ℕ) : fSub a b < P87 := by
  unfold fSub
  have h0 : (0 : ℤ) ≤ ((a : ℤ) - (b : ℤ)) % (P87 : ℤ) :=
    Int.emod_nonneg _ (by norm_num [P87])
  have h1 : ((a : ℤ) - (b : ℤ)) % (P87 : ℤ) < (P87 : ℤ) :=
    Int.emod_lt_of_pos _ (by norm_num [P87])
  omega

theorem fAdd_lt (a b : ℕ) : fAdd a b < P87 := Nat.mod_lt _ P87_pos

theorem fMul_lt (a b : ℕ) : fMul a b < P87 := Nat.mod_lt _ P87_pos

theorem fNew_lt (v : ℕ) : fNew v < P87 := Nat.mod_lt _ P87_pos

theorem fPowF_fuel_inv (v : ℕ) :
    ∀ n f₁ f₂, n < f₁ → n < f₂ → fPowF f₁ v n = fPowF f₂ v n := by
  intro n
  induction n using Nat.strong_induction_on with
  | _ n ih =>
    intro f₁ f₂ h₁ h₂
    match f₁, f₂ with
    | g₁ + 1, g₂ + 1 =>
      show fPowF (g₁ + 1) v n = fPowF (g₂ + 1) v n
      simp only [fPowF]
      rcases Nat.lt_or_ge n 2 with hn2 | hn2
      · interval_cases n
        · simp
        · simp
      have h0 : ¬ n = 0 := by omega
      have h1 : ¬ n = 1 := by omega
      simp only [h0, h1, if_false]
      rw [ih (n / 2) (by omega) g₁ g₂ (by omega) (by omega),
        ih (n % 2) (by omega) g₁ g₂ (by omega) (by omega)]

theorem fPow_zero (v : ℕ) : fPow v 0 = fNew 1 := rfl

theorem fPow_one (v : ℕ) : fPow v 1 = v := rfl

theorem fPow_ge_two (v : ℕ) {n : ℕ} (h : 2 ≤ n) :
    fPow v n = fMul (fMul (fPow v (n / 2)) (fPow v (n / 2))) (fPow v (n % 2)) := by
  unfold fPow
  conv_lhs => rw [fPowF]
  have h0 : ¬ n = 0 := by omega
  have h1 : ¬ n = 1 := by omega
  simp only [h0, h1, if_false]
  rw [fPowF_fuel_inv v (n / 2) n (n / 2 + 1) (by omega) (by omega),
    fPowF_fuel_inv v (n % 2) n (n % 2 + 1) (by omega) (by omega)]

theorem cast_fPow (v n : ℕ) : ((fPow v n : ℕ) : ZMod P87) = (v : ZMod P87) ^ n := by
  induction n using Nat.strong_induction_on with
  | _ n ih =>
    rcases Nat.lt_or_ge n 2 with hn2 | hn2
    · interval_cases n
      · rw [fPow_zero, cast_fNew, pow_zero, Nat.cast_one]
      · rw [fPow_one, pow_one]
    · rw [fPow_ge_two v hn2, cast_fMul, cast_fMul, ih (n / 2) (by omega),
        ih (n % 2) (by omega), ← pow_add, ← pow_add]
      congr 1
      omega

theorem cast_fInvert [Fact (Nat.Prime P87)] {v w : ℕ} (h : fInvert v = some w) :
    ((w : ℕ) : ZMod P87) = (v : ZMod P87)⁻¹ ∧ (v : ZMod P87) ≠ 0 := by
  unfold fInvert at h
  by_cases hg : gcdE P87 v = 1
  · rw [if_pos hg, Option.some.injEq] at h
    subst h
    have hv : (v : ZMod P87) ≠ 0 := by
      rw [Ne, ZMod.natCast_zmod_eq_zero_iff_dvd]
      intro hdvd
      rw [gcdE_eq_gcd, Nat.gcd_eq_left hdvd] at hg
      exact absurd hg (by norm_num [P87])
    refine ⟨?_, hv⟩
    rw [cast_fPow]
    have hone : (v : ZMod P87) ^ (P87 - 1) = 1 := ZMod.pow_card_sub_one_eq_one hv
    have hmul : (v : ZMod P87) * (v : ZMod P87) ^ (P87 - 2) = 1 := by
      rw [← pow_succ']
      have hsucc : P87 - 2 + 1 = P87 - 1 := by norm_num [P87]
      rw [hsucc, hone]
    exact (inv_eq_of_mul_eq_one_right hmul).symm
  · rw [if_neg hg] at h
    exact absurd h (by simp)

theorem cast_fDiv [Fact (Nat.Prime P87)] {a b w : ℕ} (h : fDiv a b = some w) :
    ((w : ℕ) : ZMod P87) = (a : ZMod P87) / (b : ZMod P87) ∧ (b : ZMod P87) ≠ 0 := by
  unfold fDiv at h
  rcases hi : fInvert b with _ | i
  · rw [hi] at h
    exact absurd h (by simp)
  · rw [hi] at h
    simp at h
    rcases h with ⟨rfl⟩
    obtain ⟨hcast, hb⟩ := cast_fInvert hi
    rw [cast_fMul, hcast, div_eq_mul_inv]
    exact ⟨rfl, hb⟩

theorem Point_some_congr {x₁ y₁ x₂ y₂ : ZMod P87} (hx : x₁ = x₂) (hy : y₁ = y₂)
    (h₁ : Wc.Nonsingular x₁ y₁) (h₂ : Wc.Nonsingular x₂ y₂) :
    (WeierstrassCurve.Affine.Point.some h₁ : Wc.Point) =
      WeierstrassCurve.Affine.Point.some h₂ := by
  subst hx
  subst hy
  rfl

theorem Wc_negY (x y : ZMod P87) : Wc.negY x y = -y := by
  rw [WeierstrassCurve.Affine.negY]
  show -y - 0 * x - 0 = -y
  ring

theorem curveE_iff (x y : ℕ) :
    curveE x y = true ↔ Wc.Equation (x : ZMod P87) (y : ZMod P87) := by
  unfold curveE
  rw [beq_iff_eq]
  rw [WeierstrassCurve.Affine.equation_iff]
  show _ ↔ (y : ZMod P87) ^ 2 + Wc.a₁ * x * y + Wc.a₃ * y =
    (x : ZMod P87) ^ 3 + Wc.a₂ * x ^ 2 + Wc.a₄ * x + Wc.a₆
  have ha : Wc.a₁ = 0 ∧ Wc.a₂ = 0 ∧ Wc.a₃ = 0 ∧ Wc.a₄ = 100 ∧ Wc.a₆ = 1 :=
    ⟨rfl, rfl, rfl, rfl, rfl⟩
  rw [ha.1, ha.2.1, ha.2.2.1, ha.2.2.2.1, ha.2.2.2.2]
  have heA : ((eA : ℕ) : ZMod P87) = 100 := by
    rw [show eA = 100 from rfl]
    exact Nat.cast_ofNat
  have heB : ((eB : ℕ) : ZMod P87) = 1 := by
    rw [show eB = 1 from rfl]
    exact Nat.cast_one
  constructor
  · intro h
    have hc : ((fMul y y : ℕ) : ZMod P87) =
        ((fAdd (fAdd (fMul (fMul x x) x) (fMul eA x)) eB : ℕ) : ZMod P87) := by rw [h]
    rw [cast_fMul, cast_fAdd, cast_fAdd, cast_fMul, cast_fMul, cast_fMul, heA, heB] at hc
    calc (y : ZMod P87) ^ 2 + 0 * x * y + 0 * y = (y : ZMod P87) * y := by ring
      _ = (x : ZMod P87) * x * x + 100 * x + 1 := hc
      _ = (x : ZMod P87) ^ 3 + 0 * x ^ 2 + 100 * x + 1 := by ring
  · intro h
    have hc : ((fMul y y : ℕ) : ZMod P87) =
        ((fAdd (fAdd (fMul (fMul x x) x) (fMul eA x)) eB : ℕ) : ZMod P87) := by
      rw [cast_fMul, cast_fAdd, cast_fAdd, cast_fMul, cast_fMul, cast_fMul, heA, heB]
      calc (y : ZMod P87) * y = (y : ZMod P87) ^ 2 + 0 * x * y + 0 * y := by ring
        _ = (x : ZMod P87) ^ 3 + 0 * x ^ 2 + 100 * x + 1 := h
        _ = (x : ZMod P87) * x * x + 100 * x + 1 := by ring
    have h1 : fMul y y < P87 := fMul_lt y y
    have h2 : fAdd (fAdd (fMul (fMul x x) x) (fMul eA x)) eB < P87 := fAdd_lt _ _
    haveI : NeZero P87 := ⟨by norm_num [P87]⟩
    have hv := congrArg ZMod.val hc
    rwa [ZMod.val_cast_of_lt h1, ZMod.val_cast_of_lt h2] at hv

theorem eNew_some {x y : ℕ} {p : EPt} (h : eNew x y = some p) : p = ⟨x, y⟩ := by
  unfold eNew at h
  by_cases hc : curveE x y
  · rw [if_pos hc, Option.some.injEq] at h
    exact h.symm
  · rw [if_neg hc] at h
    exact absurd h (by simp)

theorem two_ne_zero_F : (2 : ZMod P87) ≠ 0 := by
  intro h
  have h2 : ((2 : ℕ) : ZMod P87) = 0 := by
    rw [← h]
    exact Nat.cast_two
  rw [ZMod.natCast_zmod_eq_zero_iff_dvd] at h2
  have := Nat.le_of_dvd (by norm_num) h2
  rw [P87] at this
  omega

theorem Wc_addX (x₁ x₂ L : ZMod P87) : Wc.addX x₁ x₂ L = L * L - x₁ - x₂ := by
  rw [WeierstrassCurve.Affine.addX]
  show L ^ 2 + 0 * L - 0 - x₁ - x₂ = L * L - x₁ - x₂
  ring

theorem Wc_addY (x₁ x₂ y₁ L : ZMod P87) :
    Wc.addY x₁ x₂ y₁ L = -(L * (Wc.addX x₁ x₂ L - x₁) + y₁) := by
  rw [WeierstrassCurve.Affine.addY, WeierstrassCurve.Affine.negAddY, Wc_negY]

theorem val_cast_inj {m n : ℕ} (hm : m < P87) (hn : n < P87)
    (h : ((m : ℕ) : ZMod P87) = ((n : ℕ) : ZMod P87)) : m = n := by
  haveI : NeZero P87 := ⟨by norm_num [P87]⟩
  have := congrArg ZMod.val h
  rwa [ZMod.val_cast_of_lt hm, ZMod.val_cast_of_lt hn] at this

theorem cast_two_F : ((2 : ℕ) : ZMod P87) = 2 := Nat.cast_two

theorem cast_three_F : ((3 : ℕ) : ZMod P87) = 3 := Nat.cast_ofNat

theorem cast_eA : ((eA : ℕ) : ZMod P87) = 100 := by
  rw [show eA = 100 from rfl]
  exact Nat.cast_ofNat

open WeierstrassCurve.Affine in
theorem eAdd_tail [Fact (Nat.Prime P87)] {a b cpt : EPt} {l : ℕ}
    (ha : isPt a) (hb : isPt b)
    (hxy : (a.x : ZMod P87) = (b.x : ZMod P87) →
      (a.y : ZMod P87) ≠ Wc.negY (b.x : ZMod P87) (b.y : ZMod P87))
    (hl : (l : ZMod P87) =
      Wc.slope (a.x : ZMod P87) (b.x : ZMod P87) (a.y : ZMod P87) (b.y : ZMod P87))
    (h : eNew (fSub (fSub (fMul l l) a.x) b.x)
        (fNeg (fAdd (fMul l (fSub (fSub (fSub (fMul l l) a.x) b.x) a.x)) a.y)) =
        some cpt) :
    ∃ hc : isPt cpt, semiRed cpt ∧ 1 ≤ cpt.y ∧
      toW cpt hc = Point.some (nonsingular_add ha hb hxy) := by
  set L := Wc.slope (a.x : ZMod P87) (b.x : ZMod P87) (a.y : ZMod P87) (b.y : ZMod P87)
    with hL
  set x3 := fSub (fSub (fMul l l) a.x) b.x with hx3
  set t := fAdd (fMul l (fSub x3 a.x)) a.y with ht
  have hcpt : cpt = ⟨x3, fNeg t⟩ := eNew_some h
  have cx3 : ((x3 : ℕ) : ZMod P87) =
      Wc.addX (a.x : ZMod P87) (b.x : ZMod P87) L := by
    rw [hx3, cast_fSub, cast_fSub, cast_fMul, hl, Wc_addX]
  have hct : ((t : ℕ) : ZMod P87) =
      L * (Wc.addX (a.x : ZMod P87) (b.x : ZMod P87) L - (a.x : ZMod P87)) +
        (a.y : ZMod P87) := by
    rw [ht, cast_fAdd, cast_fMul, cast_fSub, hl, cx3]
  have htlt : t < P87 := fAdd_lt _ _
  have cy3 : ((fNeg t : ℕ) : ZMod P87) =
      Wc.addY (a.x : ZMod P87) (b.x : ZMod P87) (a.y : ZMod P87) L := by
    rw [cast_fNeg t (by omega), hct, Wc_addY]
  have hns := nonsingular_add ha hb hxy
  have hc : isPt cpt := by
    rw [hcpt]
    show Wc.Nonsingular ((x3 : ℕ) : ZMod P87) ((fNeg t : ℕ) : ZMod P87)
    rw [cx3, cy3]
    exact hns
  refine ⟨hc, ?_, ?_, ?_⟩
  · rw [hcpt]
    exact ⟨fSub_lt _ _, by show P87 - t ≤ P87; omega⟩
  · rw [hcpt]
    show 1 ≤ P87 - t
    have := P87_pos
    omega
  · show Point.some hc = Point.some (nonsingular_add ha hb hxy)
    have hcx : ((cpt.x : ℕ) : ZMod P87) =
        Wc.addX (a.x : ZMod P87) (b.x : ZMod P87) L := by
      rw [hcpt]
      exact cx3
    have hcy : ((cpt.y : ℕ) : ZMod P87) =
        Wc.addY (a.x : ZMod P87) (b.x : ZMod P87) (a.y : ZMod P87) L := by
      rw [hcpt]
      exact cy3
    exact Point_some_congr hcx hcy hc hns

open WeierstrassCurve.Affine in
theorem eAdd_some [Fact (Nat.Prime P87)] {a b cpt : EPt} (ha : isPt a) (hb : isPt b)
    (hra : semiRed a) (hrb : semiRed b) (h : eAdd a b = some cpt) :
    ∃ hc : isPt cpt, semiRed cpt ∧ 1 ≤ cpt.y ∧
      toW cpt hc = toW a ha + toW b hb := by
  unfold eAdd at h
  by_cases hassert : a.x = b.x ∧ a.y ≠ b.y
  · rw [if_pos hassert] at h
    exact absurd h (by simp)
  rw [if_neg hassert] at h
  by_cases hab : a = b
  · subst hab
    rw [if_neg (by simp)] at h
    rcases hdiv : fDiv (fAdd (fMul (fMul (fNew 3) a.x) a.x) eA) (fMul (fNew 2) a.y)
      with _ | l
    · rw [hdiv] at h
      exact absurd h (by simp)
    rw [hdiv] at h
    have htail : eNew (fSub (fSub (fMul l l) a.x) a.x)
        (fNeg (fAdd (fMul l (fSub (fSub (fSub (fMul l l) a.x) a.x) a.x)) a.y)) =
        some cpt := h
    obtain ⟨hcast, hden⟩ := cast_fDiv hdiv
    have hden2 : (2 : ZMod P87) * (a.y : ZMod P87) ≠ 0 := by
      intro hz
      apply hden
      rw [cast_fMul, cast_fNew, cast_two_F]
      exact hz
    have hyne : (a.y : ZMod P87) ≠ Wc.negY (a.x : ZMod P87) (a.y : ZMod P87) := by
      rw [Wc_negY]
      intro hz
      apply hden2
      linear_combination hz
    have hxy : (a.x : ZMod P87) = (a.x : ZMod P87) →
        (a.y : ZMod P87) ≠ Wc.negY (a.x : ZMod P87) (a.y : ZMod P87) := fun _ => hyne
    have hslope : (l : ZMod P87) =
        Wc.slope (a.x : ZMod P87) (a.x : ZMod P87) (a.y : ZMod P87) (a.y : ZMod P87) := by
      rw [slope_of_Y_ne rfl hyne]
      rw [hcast, cast_fAdd, cast_fMul, cast_fMul, cast_fNew, cast_fMul, cast_fNew,
        cast_two_F, cast_three_F, cast_eA, Wc_negY]
      rw [show Wc.a₂ = 0 from rfl, show Wc.a₄ = (100 : ZMod P87) from rfl,
        show Wc.a₁ = 0 from rfl]
      congr 1
      · ring
      · ring
    obtain ⟨hc, hsr, hy1, heq⟩ := eAdd_tail ha hb hxy hslope htail
    refine ⟨hc, hsr, hy1, ?_⟩
    have hWadd : toW a ha + toW a hb = Point.some (nonsingular_add ha hb hxy) :=
      Point.add_of_Y_ne hyne
    rw [heq, hWadd]
  · rw [if_pos hab] at h
    rcases hdiv : fDiv (fSub b.y a.y) (fSub b.x a.x) with _ | l
    · rw [hdiv] at h
      exact absurd h (by simp)
    rw [hdiv] at h
    have htail : eNew (fSub (fSub (fMul l l) a.x) b.x)
        (fNeg (fAdd (fMul l (fSub (fSub (fSub (fMul l l) a.x) b.x) a.x)) a.y)) =
        some cpt := h
    obtain ⟨hcast, hden⟩ := cast_fDiv hdiv
    have hxraw : a.x ≠ b.x := by
      intro hxeq
      have hyeq : a.y = b.y := by
        by_contra hyne
        exact hassert ⟨hxeq, hyne⟩
      apply hab
      cases a
      cases b
      simp only at hxeq hyeq
      rw [hxeq, hyeq]
    have hxne : (a.x : ZMod P87) ≠ (b.x : ZMod P87) := by
      intro hc
      exact hxraw (val_cast_inj hra.1 hrb.1 hc)
    have hxy : (a.x : ZMod P87) = (b.x : ZMod P87) →
        (a.y : ZMod P87) ≠ Wc.negY (b.x : ZMod P87) (b.y : ZMod P87) :=
      fun hc => absurd hc hxne
    have hslope : (l : ZMod P87) =
        Wc.slope (a.x : ZMod P87) (b.x : ZMod P87) (a.y : ZMod P87) (b.y : ZMod P87) := by
      rw [slope_of_X_ne hxne, hcast, cast_fSub, cast_fSub]
      rw [show (b.y : ZMod P87) - (a.y : ZMod P87) = -((a.y : ZMod P87) - (b.y : ZMod P87))
        by ring]
      rw [show (b.x : ZMod P87) - (a.x : ZMod P87) = -((a.x : ZMod P87) - (b.x : ZMod P87))
        by ring]
      rw [neg_div_neg_eq]
    obtain ⟨hc, hsr, hy1, heq⟩ := eAdd_tail ha hb hxy hslope htail
    refine ⟨hc, hsr, hy1, ?_⟩
    have hWadd : toW a ha + toW b hb = Point.some (nonsingular_add ha hb hxy) :=
      Point.add_of_imp hxy
    rw [heq, hWadd]

theorem eMulF_fuel_inv (a : EPt) :
    ∀ n f₁ f₂, n < f₁ → n < f₂ → eMulF f₁ a n = eMulF f₂ a n := by
  intro n
  induction n using Nat.strong_induction_on with
  | _ n ih =>
    intro f₁ f₂ h₁ h₂
    match f₁, f₂ with
    | g₁ + 1, g₂ + 1 =>
      show eMulF (g₁ + 1) a n = eMulF (g₂ + 1) a n
      simp only [eMulF]
      rcases Nat.lt_or_ge n 2 with hn2 | hn2
      · interval_cases n
        · simp
        · simp
      have h0 : ¬ n = 0 := by omega
      have h1 : ¬ n = 1 := by omega
      simp only [h0, h1, if_false]
      rw [ih (n / 2) (by omega) g₁ g₂ (by omega) (by omega)]

theorem eMul_zero (a : EPt) : eMul a 0 = none := rfl

theorem eMul_one (a : EPt) : eMul a 1 = some a := rfl

theorem eMul_ge_two (a : EPt) {n : ℕ} (h : 2 ≤ n) :
    eMul a n =
      match eMul a (n / 2) with
      | none => none
      | some pr => if n % 2 = 0 then eAdd pr pr else (eAdd pr pr).bind fun s => eAdd s a := by
  unfold eMul
  conv_lhs => rw [eMulF]
  have h0 : ¬ n = 0 := by omega
  have h1 : ¬ n = 1 := by omega
  simp only [h0, h1, if_false]
  rw [eMulF_fuel_inv a (n / 2) n (n / 2 + 1) (by omega) (by omega)]

open WeierstrassCurve.Affine in
theorem eMul_some [Fact (Nat.Prime P87)] {a : EPt} (ha : isPt a) (hra : semiRed a) :
    ∀ n Q, eMul a n = some Q →
      1 ≤ n ∧ ∃ hQ : isPt Q, semiRed Q ∧ toW Q hQ = n • toW a ha := by
  intro n
  induction n using Nat.strong_induction_on with
  | _ n ih =>
    intro Q h
    rcases Nat.lt_or_ge n 2 with hn2 | hn2
    · interval_cases n
      · rw [eMul_zero] at h
        exact absurd h (by simp)
      · rw [eMul_one, Option.some.injEq] at h
        subst h
        exact ⟨le_rfl, ha, hra, (one_nsmul _).symm⟩
    · rw [eMul_ge_two a hn2] at h
      rcases hrec : eMul a (n / 2) with _ | pr
      · rw [hrec] at h
        exact absurd h (by simp)
      rw [hrec] at h
      have h' : (if n % 2 = 0 then eAdd pr pr
          else (eAdd pr pr).bind fun s => eAdd s a) = some Q := h
      obtain ⟨-, hpr, hrpr, hWpr⟩ := ih (n / 2) (by omega) pr hrec
      by_cases h2 : n % 2 = 0
      · rw [if_pos h2] at h'
        obtain ⟨hQ, hrQ, -, hWQ⟩ := eAdd_some hpr hpr hrpr hrpr h'
        refine ⟨by omega, hQ, hrQ, ?_⟩
        rw [hWQ, hWpr, ← add_nsmul]
        congr 1
        omega
      · rw [if_neg h2] at h'
        rcases hs : eAdd pr pr with _ | s
        · rw [hs] at h'
          exact absurd h' (by simp)
        rw [hs] at h'
        simp only [Option.some_bind] at h'
        obtain ⟨hS, hrS, -, hWS⟩ := eAdd_some hpr hpr hrpr hrpr hs
        obtain ⟨hQ, hrQ, -, hWQ⟩ := eAdd_some hS ha hrS hra h'
        refine ⟨by omega, hQ, hrQ, ?_⟩
        rw [hWQ, hWS, hWpr]
        have hstep : ((n / 2) • toW a ha + (n / 2) • toW a ha) + toW a ha =
            (n / 2 + n / 2 + 1) • toW a ha := by
          rw [add_nsmul, add_nsmul, one_nsmul]
        rw [hstep]
        congr 1
        omega

open WeierstrassCurve.Affine in
theorem eSub_some [Fact (Nat.Prime P87)] {a b m : EPt} (ha : isPt a) (hb : isPt b)
    (hra : semiRed a) (hrb : semiRed b) (h : eSubPt a b = some m) :
    ∃ hm : isPt m, semiRed m ∧ 1 ≤ m.y ∧ toW m hm = toW a ha - toW b hb := by
  unfold eSubPt at h
  rcases hn : eNew b.x (fNeg b.y) with _ | nb
  · rw [hn] at h
    exact absurd h (by simp)
  rw [hn] at h
  simp only [Option.some_bind] at h
  have hnb : nb = ⟨b.x, fNeg b.y⟩ := eNew_some hn
  have hnbns : isPt nb := by
    rw [hnb]
    show Wc.Nonsingular (b.x : ZMod P87) ((fNeg b.y : ℕ) : ZMod P87)
    rw [cast_fNeg b.y hrb.2]
    have := WeierstrassCurve.Affine.nonsingular_neg hb
    rwa [Wc_negY] at this
  have hrnb : semiRed nb := by
    rw [hnb]
    refine ⟨hrb.1, ?_⟩
    show P87 - b.y ≤ P87
    omega
  obtain ⟨hm, hrm, hy1, hWm⟩ := eAdd_some ha hnbns hra hrnb h
  refine ⟨hm, hrm, hy1, ?_⟩
  rw [hWm]
  have hnbW : toW nb hnbns = - toW b hb := by
    have hneg : - toW b hb = Point.some (nonsingular_neg hb) := Point.neg_some hb
    rw [hneg]
    apply Point_some_congr
    · rw [hnb]
    · rw [hnb]
      show ((fNeg b.y : ℕ) : ZMod P87) = Wc.negY (b.x : ZMod P87) (b.y : ZMod P87)
      rw [cast_fNeg b.y hrb.2, Wc_negY]
  rw [hnbW, sub_eq_add_neg]

theorem isPt_of_curveE {P : EPt} (h : curveE P.x P.y = true) : isPt P :=
  WeierstrassCurve.Affine.nonsingular_of_Δ_ne_zero Wc ((curveE_iff P.x P.y).mp h)
    Wc_delta_ne_zero

theorem eG_curve : curveE eG.x eG.y = true := by decide

theorem eG_semiRed : semiRed eG := by
  constructor
  · show 2500 < P87
    norm_num [P87]
  · show 125001 ≤ P87
    norm_num [P87]

/-- C1: the ElGamal round trip as claimed fails on the curve's 2-torsion
points: with private key 1, ephemeral scalar 1 and the valid on-curve message
point `(33213727562, 0)` (whose y-coordinate is zero), encryption succeeds but
decryption returns the point with y-coordinate stored as `P87` instead of `0`:
the doubling inside `c2 - c1·pri` passes through `Neg`, which stores `P − 0`
unreduced, and the derived equality on raw values rejects it. -/
theorem C1_roundtrip_counterexample :
    eGenPub 1 = some eG ∧
    curveE 33213727562 0 = true ∧ 33213727562 < P87 ∧
    eEncrypt eG ⟨33213727562, 0⟩ 1 =
      some (⟨2500, 125001⟩, ⟨21915417799, 85426483675⟩) ∧
    eDecrypt 1 ⟨2500, 125001⟩ ⟨21915417799, 85426483675⟩ =
      some ⟨33213727562, 87178291199⟩ ∧
    (⟨33213727562, 87178291199⟩ : EPt) ≠ (⟨33213727562, 0⟩ : EPt) := by
  refine ⟨by decide, by decide, by decide, by decide, by decide, by decide⟩

/-- C1 (amended): the ElGamal round trip holds for every message point that
is on the curve, has reduced coordinates and nonzero y-coordinate: whenever
key generation (`pub = G·pri`), encryption (`c1 = G·t`, `c2 = pub·t + msg`)
and decryption (`c2 − c1·pri`) all return without panicking, the decrypted
point equals the message. -/
theorem C1_roundtrip_amended (pri t : ℕ) (msg pb c1 c2 mp : EPt)
    (hcurve : curveE msg.x msg.y = true)
    (hx : msg.x < P87) (hy : msg.y < P87) (hy0 : msg.y ≠ 0)
    (hpub : eGenPub pri = some pb)
    (henc : eEncrypt pb msg t = some (c1, c2))
    (hdec : eDecrypt pri c1 c2 = some mp) :
    mp = msg := by
  haveI : Fact (Nat.Prime P87) := ⟨P87_prime⟩
  have hmsgP : isPt msg := isPt_of_curveE hcurve
  have hmsgR : semiRed msg := ⟨hx, by omega⟩
  have hGP : isPt eG := isPt_of_curveE eG_curve
  have hGR : semiRed eG := eG_semiRed
  obtain ⟨hpri1, hpbP, hpbR, hpbW⟩ := eMul_some hGP hGR pri pb hpub
  unfold eEncrypt at henc
  rcases hc1 : eMul eG t with _ | c1'
  · rw [hc1] at henc
    exact absurd henc (by simp)
  rw [hc1] at henc
  simp only [Option.some_bind] at henc
  rcases hs : eMul pb t with _ | s
  · rw [hs] at henc
    exact absurd henc (by simp)
  rw [hs] at henc
  simp only [Option.some_bind] at henc
  rcases hc2 : eAdd s msg with _ | c2'
  · rw [hc2] at henc
    exact absurd henc (by simp)
  rw [hc2] at henc
  simp at henc
  obtain ⟨hc1eq, hc2eq⟩ := henc
  subst hc1eq
  subst hc2eq
  obtain ⟨ht1, hc1P, hc1R, hc1W⟩ := eMul_some hGP hGR t c1' hc1
  obtain ⟨-, hsP, hsR, hsW⟩ := eMul_some hpbP hpbR t s hs
  obtain ⟨hc2P, hc2R, -, hc2W⟩ := eAdd_some hsP hmsgP hsR hmsgR hc2
  unfold eDecrypt at hdec
  rcases hd : eMul c1' pri with _ | d
  · rw [hd] at hdec
    exact absurd hdec (by simp)
  rw [hd] at hdec
  simp only [Option.some_bind] at hdec
  obtain ⟨-, hdP, hdR, hdW⟩ := eMul_some hc1P hc1R pri d hd
  obtain ⟨hmP, hmR, hmy1, hmW⟩ := eSub_some hc2P hdP hc2R hdR hdec
  have hZ : toW mp hmP = toW msg hmsgP := by
    rw [hmW, hc2W, hsW, hpbW, hdW, hc1W]
    rw [smul_smul, smul_smul, Nat.mul_comm t pri]
    exact add_sub_cancel_left _ _
  have hcoords : ((mp.x : ℕ) : ZMod P87) = ((msg.x : ℕ) : ZMod P87) ∧
      ((mp.y : ℕ) : ZMod P87) = ((msg.y : ℕ) : ZMod P87) := by
    have h2 := hZ
    unfold toW at h2
    rw [WeierstrassCurve.Affine.Point.some.injEq] at h2
    exact ⟨h2.1, h2.2⟩
  have hxeq : mp.x = msg.x := val_cast_inj hmR.1 hx hcoords.1
  have hyne_p : mp.y ≠ P87 := by
    intro hp
    have hz : ((mp.y : ℕ) : ZMod P87) = ((0 : ℕ) : ZMod P87) := by
      rw [hp, Nat.cast_zero]
      exact ZMod.natCast_self P87
    rw [hcoords.2] at hz
    exact hy0 (val_cast_inj hy (by rw [P87]; omega) hz)
  have hylt : mp.y < P87 := by
    have := hmR.2
    omega
  have hyeq : mp.y = msg.y := val_cast_inj hylt hy hcoords.2
  cases mp
  cases msg
  simp only at hxeq hyeq
  rw [hxeq, hyeq]

theorem C1_roundtrip_amended_witness : (⟨2500, 125001⟩ : EPt) = eG :=
  C1_roundtrip_amended 2 3 eG ⟨52275388850, 56753866489⟩ ⟨72570289723, 2874605561⟩
    ⟨72805242541, 23825615010⟩ ⟨2500, 125001⟩
    (by decide) (by decide) (by decide) (by decide) (by decide) (by decide) (by decide)

end Spec2
